import Mathlib

set_option maxRecDepth 10000

/-!
# Verification of the eduprogram curriculum-document parsers

Shallow embedding of the string-processing cores of the five institution
parsers (`parserLETI.py`, `parserGUAP.py`, `parserMPU.py`, `parserSpbPU.py`,
`ParserMTUCI.py`) and of the credential hashing of
`dataBaseController.py`.

Texts are modelled as `List Char`; Python string operations (`find`,
slicing with negative indices, `strip`, `split`, `str.replace`) are
embedded with their Python semantics.  Concrete regular expressions from
the source are hand-compiled into executable scanners; each carries a doc
comment quoting the original pattern.  PDF extraction and the file system
are outside the embedding: functions that the source feeds with extracted
text take that text (and, where used, the file name or the list of
bold-font lines) as parameters.
-/

/-- Characters of a Lean string literal; used to write concrete inputs. -/
def chars (s : String) : List Char := s.data

/-- Python whitespace: the character set matched by `str.isspace`, by
`str.strip()` with no argument, and by the regex class `\s` on `str`
patterns. -/
def pyIsSpace (c : Char) : Bool :=
  c.toNat = 32 || (9 ≤ c.toNat && c.toNat ≤ 13) || (28 ≤ c.toNat && c.toNat ≤ 31) ||
  c.toNat = 0x85 || c.toNat = 0xa0 || c.toNat = 0x1680 ||
  (0x2000 ≤ c.toNat && c.toNat ≤ 0x200a) || c.toNat = 0x2028 || c.toNat = 0x2029 ||
  c.toNat = 0x202f || c.toNat = 0x205f || c.toNat = 0x3000

/-- The soft hyphen U+00AD (`"\xad"` in the Python sources). -/
def softHyphen : Char := Char.ofNat 0xad

/-- Replace every maximal run of characters satisfying `p` by one ASCII
space.  With `p = pyIsSpace` this is `re.sub(r'\s+', ' ', s)`; with
`p = (· = ' ')` it is `re.sub(r'[ ]+', ' ', s)`. -/
def collapseRuns (p : Char → Bool) : List Char → List Char
  | [] => []
  | [c] => if p c then [' '] else [c]
  | a :: b :: rest =>
    if p a && p b then collapseRuns p (b :: rest)
    else (if p a then ' ' else a) :: collapseRuns p (b :: rest)

/-- Remove the longest suffix of characters satisfying `p`. -/
def dropEndWhile (p : Char → Bool) : List Char → List Char
  | [] => []
  | a :: t =>
    let r := dropEndWhile p t
    if r.isEmpty then (if p a then [] else [a]) else a :: r

/-- `spacedOk p l`: no two adjacent characters of `l` satisfy `p`, and every
character satisfying `p` is an ASCII space.  This is the shape of the output
of `collapseRuns p`. -/
def spacedOk (p : Char → Bool) : List Char → Bool
  | [] => true
  | [c] => !p c || c = ' '
  | a :: b :: rest => (!p a || a = ' ') && !(p a && p b) && spacedOk p (b :: rest)

/-- Python `str.strip()`: remove leading and trailing whitespace. -/
def pyStrip (l : List Char) : List Char :=
  dropEndWhile pyIsSpace (l.dropWhile pyIsSpace)

/-- Python `str.strip(cs)` for an explicit character set. -/
def pyStripChars (cs : List Char) (l : List Char) : List Char :=
  dropEndWhile (· ∈ cs) (l.dropWhile (· ∈ cs))

/-- Python `s.replace(a, b)` where `a` and `b` are single characters. -/
def replaceChar (a b : Char) (l : List Char) : List Char :=
  l.map fun c => if c = a then b else c

/-- Python `s.replace(" \n", "")`: delete every (left-to-right,
non-overlapping) occurrence of a space directly followed by a newline. -/
def removeSpaceNewline : List Char → List Char
  | [] => []
  | [c] => [c]
  | a :: b :: rest =>
    if a = ' ' && b = '\n' then removeSpaceNewline rest
    else a :: removeSpaceNewline (b :: rest)

namespace ParserLETI

/-- `parserLETI.py`, `normalizeSpaces`:
`re.sub(r'\s+', ' ', s).replace("\xad", " ").replace(" \n", "").strip()`. -/
def normalizeSpaces (s : List Char) : List Char :=
  pyStrip (removeSpaceNewline (replaceChar softHyphen ' ' (collapseRuns pyIsSpace s)))

/-- The `pdfSpaces` list of `parserLETI.py`, `cleanPdfSpaces` (each entry is
a single character; `"\xad"` and `"­"` are the same character, so the
two replace passes of the source coincide with one). -/
def pdfSpaces : List Char :=
  [Char.ofNat 0xa0, Char.ofNat 0x2000, Char.ofNat 0x2001, Char.ofNat 0x2002,
   Char.ofNat 0x2003, Char.ofNat 0x2004, Char.ofNat 0x2005, Char.ofNat 0x2006,
   Char.ofNat 0x2007, Char.ofNat 0x2008, Char.ofNat 0x2009, Char.ofNat 0x200a,
   Char.ofNat 0x202f, Char.ofNat 0x205f, Char.ofNat 0x3000,
   softHyphen, Char.ofNat 0x200b]

/-- `parserLETI.py`, `cleanPdfSpaces`: replace each character of
`pdfSpaces` by an ASCII space, collapse runs of ASCII spaces
(`re.sub(r'[ ]+', ' ', text)`), and strip. -/
def cleanPdfSpaces (t : List Char) : List Char :=
  pyStrip (collapseRuns (· = ' ')
    (t.map fun c => if c ∈ pdfSpaces then ' ' else c))

end ParserLETI

/-- Index of the first occurrence of `pat` as a contiguous substring of
`hay` (`none` when it does not occur).  Basis of Python `str.find` and of
the `in` substring test. -/
def findIdx? : List Char → List Char → Option Nat
  | [], pat => if pat.isPrefixOf [] then some 0 else none
  | a :: t, pat =>
    if pat.isPrefixOf (a :: t) then some 0
    else (findIdx? t pat).map (· + 1)

/-- Python `hay.find(pat)`: first index of `pat` in `hay`, `-1` if absent. -/
def pyFind (hay pat : List Char) : Int :=
  match findIdx? hay pat with
  | some i => (i : Int)
  | none => -1

/-- Python `hay.find(pat, start)` for a non-negative `start`. -/
def pyFindFrom (hay pat : List Char) (start : Nat) : Int :=
  match findIdx? (hay.drop start) pat with
  | some i => ((start + i : Nat) : Int)
  | none => -1

/-- Python `pat in hay` substring test. -/
def isSubstr (pat hay : List Char) : Bool := (findIdx? hay pat).isSome

/-- Normalization of one Python slice index against a length `n`: a
negative index counts from the end, and the result is clamped to `[0, n]`. -/
def pySliceIdx (n : Nat) (i : Int) : Nat :=
  (if i < 0 then max (i + n) 0 else min i (n : Int)).toNat

/-- Python slice `l[a:b]` with `Int` bounds. -/
def pySlice (l : List Char) (a b : Int) : List Char :=
  (l.take (pySliceIdx l.length b)).drop (pySliceIdx l.length a)

namespace ParserLETI

/-- `parserLETI.py` line 19. -/
def textForPreviousSubject : List Char :=
  chars "Дисциплина изучается на основе ранее освоенных дисциплин учебного плана:"

/-- `parserLETI.py` line 20. -/
def endTextForPreviousSubject : List Char := chars "и обеспечивает"

/-- `parserLETI.py` line 21. -/
def textForSubjectTopics : List Char := chars "4.1.2 Содержание"

/-- `parserLETI.py` line 22. -/
def endText : List Char := chars "4.2 Перечень лабораторных работ"

/-- `parserLETI.py` line 23. -/
def textWithNameSubject : List Char := chars "РАБОЧАЯ ПРОГРАММА дисциплины"

/-- `parserLETI.py`, `readPdf` lines 87-93: the raw slice between the
previous-disciplines marker and its terminator.  When the terminator is
not found at or after the marker, the end index is set to the text length
(`if endIdx == -1: endIdx = len(fullText)`).  `none` when the marker is
absent. -/
def previousBlock (fullText : List Char) : Option (List Char) :=
  if pyFind fullText textForPreviousSubject ≠ -1 then
    let startIdx : Int := pyFind fullText textForPreviousSubject +
      (textForPreviousSubject.length : Int)
    let found : Int := pyFindFrom fullText endTextForPreviousSubject startIdx.toNat
    let endIdx : Int := if found = -1 then (fullText.length : Int) else found
    some (pySlice fullText startIdx endIdx)
  else none

/-- `parserLETI.py`, `readPdf` lines 102-106: the stripped slice between
the topics marker and `endText`, where `endIdx = fullText.find(self.endText)`
is used as a slice bound without a `-1` guard.  `none` when the marker is
absent. -/
def topicsBlockRaw (fullText : List Char) : Option (List Char) :=
  if isSubstr textForSubjectTopics fullText then
    let startIdx : Int := pyFind fullText textForSubjectTopics +
      (textForSubjectTopics.length : Int)
    let endIdx : Int := pyFind fullText endText
    some (pyStrip (pySlice fullText startIdx endIdx))
  else none

end ParserLETI

namespace ParserMPU

/-- `parserMPU.py` lines 27-31, `__contentEndPatterns`. -/
def contentEndPatterns : List (List Char) :=
  [chars "4 Учебно-методическое", chars "4. Учебно-методическое", chars "4."]

/-- `parserMPU.py`, `_extract_topics` lines 208-215: scan the configured
end markers in list order and stop at the first one that occurs at or
after `contentPos`. -/
def endPosFrom (fullText : List Char) (contentPos : Nat) : List (List Char) → Option Nat
  | [] => none
  | m :: ms =>
    if pyFindFrom fullText m contentPos = -1 then endPosFrom fullText contentPos ms
    else some (pyFindFrom fullText m contentPos).toNat

/-- `parserMPU.py`, `_extract_topics` lines 208-216: the end of the content
section; `contentPos + 10000` when no configured end marker occurs. -/
def endPos (fullText : List Char) (contentPos : Nat) : Nat :=
  match endPosFrom fullText contentPos contentEndPatterns with
  | some p => p
  | none => contentPos + 10000

end ParserMPU

namespace ParserMTUCI

/-- `ParserMTUCI.py` line 19, `__endTextForTopics`. -/
def endTextForTopics : List (List Char) :=
  [chars "Лекция", chars "Лабораторная работа", chars "Практическая работа",
   chars "№ п/п", chars "Практическое занятие"]

/-- The positions list of `ParserMTUCI.py`, `__cut_by_words` lines 78-82:
`[text.find(word) for word in words if text.find(word) != -1]`. -/
def cutPositions (text : List Char) (words : List (List Char)) : List Nat :=
  words.filterMap fun w =>
    if pyFind text w = -1 then none else some (pyFind text w).toNat

/-- `ParserMTUCI.py`, `__cut_by_words`: return `text` unchanged when no
word occurs, otherwise `text[:min(positions)].strip()`. -/
def cut_by_words (text : List Char) (words : List (List Char)) : List Char :=
  match (cutPositions text words).min? with
  | none => text
  | some m => pyStrip (text.take m)

end ParserMTUCI

/-- Python `str.lower` restricted to the character repertoire of this
code base: ASCII letters and the Cyrillic letters А-Я / Ё (other
characters, including the private-use glyphs in the configured word
lists, are unchanged, as `str.lower` leaves them unchanged too). -/
def pyToLower (c : Char) : Char :=
  if 'A' ≤ c && c ≤ 'Z' then Char.ofNat (c.toNat + 32)
  else if 'А' ≤ c && c ≤ 'Я' then Char.ofNat (c.toNat + 32)
  else if c = 'Ё' then 'ё'
  else c

/-- Python `str.upper` restricted in the same way as `pyToLower`. -/
def pyToUpper (c : Char) : Char :=
  if 'a' ≤ c && c ≤ 'z' then Char.ofNat (c.toNat - 32)
  else if 'а' ≤ c && c ≤ 'я' then Char.ofNat (c.toNat - 32)
  else if c = 'ё' then 'Ё'
  else c

/-- Lexicographic comparison of code points: Python `<=` on strings,
as used by `sorted`. -/
def strLe : List Char → List Char → Bool
  | [], _ => true
  | _ :: _, [] => false
  | a :: as, b :: bs => if a = b then strLe as bs else decide (a < b)

namespace ParserGUAP

/-- `parserGUAP.py` lines 50-66, `__stop_words` (59 entries; three are private-use glyph characters). -/
def stop_words : List (List Char) := [
  chars "знания", chars "дисциплин", chars "—", chars "\uF0B7", chars "●", chars "•", chars "–",
  chars "-", chars "_", chars "\uF02D", chars "выполнении плана", chars "подготовке выпускной",
  chars "преддипломной практики", chars "квалификационной работы",
  chars "дипломное проектирование", chars "вкр", chars "«культурология", chars "«основы",
  chars "«социология", chars "«философия", chars "имеют как", chars "самостоятельное значение",
  chars "материала данной дисциплины", chars "полученные при изучении",
  chars "ранее приобретенных", chars "при изучении следующих", chars "а также",
  chars "связанных с", chars "сетевые технологии", chars "защитой информации",
  chars "учебная практика", chars "производственная практика", chars "технологическая практика",
  chars "учебным планом", chars "не предусмотрено", chars "школьного курса",
  chars "курс физической культуры", chars "курс основы безопасности",
  chars "курс естествознания", chars "в средней школе",
  chars "так и могут использоваться при изучении других", chars "выпускной", chars "подготовке",
  chars "значение", chars "используются", chars "самостоятельное", chars "телекоммуникации",
  chars "базироваться", chars "может", chars "образования", chars "обучающимися",
  chars "приобретенных", chars "ранее", chars "среднего общего",
  chars "среднего профессионального", chars "\uF0BE", chars "данные",
  chars "информационная безопасность", chars "основы теории информации"]

/-- `parserGUAP.py` lines 68-72, `__bad_starts`. -/
def bad_starts : List (List Char) := [
  chars "—", chars "«", chars "\uF0B7", chars "●", chars "•", chars "–", chars "-", chars "_",
  chars "\uF0BE", chars "\uF02D", chars "в", chars "на", chars "при", chars "для", chars "и",
  chars "с", chars "со", chars "к", chars "по", chars "из", chars "за", chars "над",
  chars "под", chars "об", chars "от", chars "так", chars "также", chars "а", chars "но",
  chars "или"]

/-- The character class of `re.sub(r'^[−–•\*\-\s]+', '', item)` in
`_clean_discipline_list` (a private-use glyph, minus sign, en dash,
bullet, asterisk, hyphen, and whitespace). -/
def leadJunk (c : Char) : Bool :=
  c = '' || c = '−' || c = '–' || c = '•' || c = '*' || c = '-' || pyIsSpace c

/-- The strip set of `item.strip(' ,.;:«»"\'')`. -/
def stripSet : List Char := [' ', ',', '.', ';', ':', '«', '»', '"', '\'']

/-- `parserGUAP.py`, `_clean_text`: replace newlines by spaces, delete
carriage returns, collapse whitespace runs, strip. -/
def clean_text (t : List Char) : List Char :=
  pyStrip (collapseRuns pyIsSpace ((replaceChar '\n' ' ' t).filter (fun c => c ≠ '\r')))

/-- First whitespace-separated word of a text:
`text.split()[0] if text.split() else ""` of `_is_valid_discipline`. -/
def firstWord (l : List Char) : List Char :=
  (l.dropWhile pyIsSpace).takeWhile (fun c => !pyIsSpace c)

/-- `parserGUAP.py`, `_is_valid_discipline` lines 330-353: reject when
shorter than 3 characters, when the lowercased text contains any
(lowercased) stop word as a substring, or when the first word is a
bad-start entry. -/
def is_valid_discipline (text : List Char) : Bool :=
  if text.isEmpty || text.length < 3 then false
  else
    let tl := text.map pyToLower
    if stop_words.any (fun w => isSubstr (w.map pyToLower) tl) then false
    else !(bad_starts.any (fun b => firstWord tl = b))

/-- The dedup key of `_clean_discipline_list`:
`re.sub(r'\s+', '', item.lower())`. -/
def dedupKey (l : List Char) : List Char :=
  (l.map pyToLower).filter (fun c => !pyIsSpace c)

/-- The per-item cleanup of `_clean_discipline_list` lines 369-374:
strip, drop the leading junk run, strip the punctuation set, and
capitalize the first character when longer than one character. -/
def cleanItem (item : List Char) : List Char :=
  let s := pyStripChars stripSet ((pyStrip item).dropWhile leadJunk)
  if !s.isEmpty && s.length > 1 then
    match s with
    | c :: rest => pyToUpper c :: rest
    | [] => s
  else s

/-- The accept/reject decision of the `_clean_discipline_list` loop body
(lines 369-380): `none` when the cleaned item is dropped by the length
guard or by `_is_valid_discipline`. -/
def acceptItem (item : List Char) : Option (List Char) :=
  let c := cleanItem item
  if c.isEmpty || c.length < 3 then none
  else if !is_valid_discipline c then none
  else some c

/-- The `cleaned` / `seen` accumulation loop of `_clean_discipline_list`
lines 365-387 (`acc` is kept reversed while folding). -/
def cleanLoop : List (List Char) → List (List Char) → List (List Char) → List (List Char)
  | [], _, acc => acc.reverse
  | item :: rest, seen, acc =>
    match acceptItem item with
    | none => cleanLoop rest seen acc
    | some c =>
      if dedupKey c ∈ seen then cleanLoop rest seen acc
      else cleanLoop rest (dedupKey c :: seen) (c :: acc)

/-- `parserGUAP.py`, `_clean_discipline_list`: clean, validate,
deduplicate keeping first occurrences, then `sorted(cleaned)` (Python's
sort is the unique stable ascending order; with the duplicate keys
removed the entries are pairwise distinct, so any ascending sort agrees
with it). -/
def clean_discipline_list (items : List (List Char)) : List (List Char) :=
  List.insertionSort (fun a b => strLe a b = true) (cleanLoop items [] [])

/-- `parserGUAP.py`, `_remove_intersection` lines 391-414: if either list
is empty both are returned unchanged; otherwise every string present in
both lists is removed from both. -/
def remove_intersection (prev next : List (List Char)) :
    List (List Char) × List (List Char) :=
  if prev.isEmpty || next.isEmpty then (prev, next)
  else
    let common := fun x => decide (x ∈ prev) && decide (x ∈ next)
    (prev.filter (fun x => !common x), next.filter (fun x => !common x))

/-- The final list pairing of `_extract_disciplines_lists` lines 275-277:
clean both raw lists, then remove their intersection. -/
def finalLists (rawPrev rawNext : List (List Char)) :
    List (List Char) × List (List Char) :=
  remove_intersection (clean_discipline_list rawPrev) (clean_discipline_list rawNext)

/-- First cleaned form, among the accepted items of `items`, whose dedup
key is `k` (used to state that deduplication keeps first occurrences). -/
def firstWithKey (items : List (List Char)) (k : List Char) : Option (List Char) :=
  items.findSome? fun it =>
    match acceptItem it with
    | some c => if dedupKey c = k then some c else none
    | none => none

end ParserGUAP

/-- A Python attribute value, restricted to the shapes `ParserLETI`
stores: strings and (insertion-ordered) dicts. -/
inductive PyVal where
  | pyStr : List Char → PyVal
  | pyDict : List (List Char × PyVal) → PyVal

/-- The error raised by a failing Python attribute access. -/
inductive PyAttrErr where
  | attributeError
  | typeError
deriving DecidableEq

/-- A Python object as an attribute store (its `__dict__`). -/
structure PyObject where
  attrs : List (String × PyVal)

/-- Python attribute access `obj.name`: `AttributeError` when the
attribute was never assigned. -/
def pyGetAttr (o : PyObject) (name : String) : Except PyAttrErr PyVal :=
  match o.attrs.lookup name with
  | some v => Except.ok v
  | none => Except.error PyAttrErr.attributeError

namespace ParserLETI

/-- `parserLETI.py`, `__init__` lines 13-23: the constructor assigns the
*public* attributes `universityDirName` and `directionsOfStudy` (an empty
dict) and the five marker strings.  It never assigns
`_ParserLETI__directionsOfStudy`, the name to which `self.__directionsOfStudy`
mangles inside `class ParserLETI`. -/
def init (universityDirName : PyVal) : PyObject :=
  ⟨[("universityDirName", universityDirName),
    ("directionsOfStudy", PyVal.pyDict []),
    ("textForPreviousSubject", PyVal.pyStr textForPreviousSubject),
    ("endTextForPreviousSubject", PyVal.pyStr endTextForPreviousSubject),
    ("textForSubjectTopics", PyVal.pyStr textForSubjectTopics),
    ("endText", PyVal.pyStr endText),
    ("textWithNameSubject", PyVal.pyStr textWithNameSubject)]⟩

/-- `parserLETI.py`, `getDirection` lines 43-47.  Inside the class body
`self.__directionsOfStudy` denotes the mangled attribute
`_ParserLETI__directionsOfStudy`; the method tests membership and indexes
it, returning `{}` when the direction is missing. -/
def getDirection (self : PyObject) (direction : List Char) : Except PyAttrErr PyVal :=
  match pyGetAttr self "_ParserLETI__directionsOfStudy" with
  | Except.error e => Except.error e
  | Except.ok (PyVal.pyDict d) =>
    match d.lookup direction with
    | some v => Except.ok v
    | none => Except.ok (PyVal.pyDict [])
  | Except.ok (PyVal.pyStr _) => Except.error PyAttrErr.typeError

/-- `parserLETI.py`, `getAllDirections` lines 49-51: returns the mangled
attribute `_ParserLETI__directionsOfStudy`. -/
def getAllDirections (self : PyObject) : Except PyAttrErr PyVal :=
  pyGetAttr self "_ParserLETI__directionsOfStudy"

end ParserLETI

namespace DataBaseController

/-- `dataBaseController.py`, `__getHashByLoginPwd` lines 45-50: the string
that gets hashed is `f"{login}:{password}"`. -/
def combined (login password : List Char) : List Char :=
  login ++ chars ":" ++ password

/-- `__getHashByLoginPwd`: SHA-256 of the combined string.  SHA-256 is a
fixed deterministic function of its input, so it is modelled as a
function parameter `h` applied to the combined string; every statement
below holds for *every* `h`, in particular for SHA-256.  The collision
exhibited for claim C10 happens in the combined string itself, before
hashing. -/
def getHashByLoginPwd (h : List Char → List Char) (login password : List Char) :
    List Char :=
  h (combined login password)

/-- `addUser` lines 52-79, effect on the `users` table: one row holding
`hash_login_password` is appended.  The table is modelled as the list of
stored hashes; a row id is its index. -/
def addUser (h : List Char → List Char) (db : List (List Char))
    (login password : List Char) : List (List Char) :=
  db ++ [getHashByLoginPwd h login password]

/-- `findUser` lines 81-110: `SELECT * FROM users WHERE
hash_login_password = %s` followed by `fetchone`, i.e. the id of the
first row whose stored hash equals the probe hash. -/
def findUser (h : List Char → List Char) (db : List (List Char))
    (login password : List Char) : Option Nat :=
  db.findIdx? fun row => row == getHashByLoginPwd h login password

end DataBaseController

/-- Python `str.isdigit` / regex `\d`, restricted to the ASCII digits that
occur in this corpus. -/
def pyIsDigit (c : Char) : Bool := '0' ≤ c && c ≤ '9'

/-- Python `str.isalpha`, restricted to the repertoire of this code base:
ASCII letters and Cyrillic letters (А-я plus Ё/ё). -/
def pyIsAlpha (c : Char) : Bool :=
  ('a' ≤ c && c ≤ 'z') || ('A' ≤ c && c ≤ 'Z') ||
  ('А' ≤ c && c ≤ 'я') || c = 'Ё' || c = 'ё'

/-- Python slice `l[a:]` with an `Int` start. -/
def pySliceFrom (l : List Char) (a : Int) : List Char :=
  l.drop (pySliceIdx l.length a)

/-- Python `s.split(sep)` for a one-character separator (empty pieces are
kept; `"".split(sep) == [""]`). -/
def splitOnChar (sep : Char) : List Char → List (List Char)
  | [] => [[]]
  | c :: rest =>
    let r := splitOnChar sep rest
    if c = sep then [] :: r
    else
      match r with
      | [] => [[c]]
      | h :: t => (c :: h) :: t

/-- Deletion of every (leftmost, non-overlapping) occurrence of the
non-empty literal `pat`: Python `s.replace(pat, "")`, also
`re.sub(pat-literal, '', s)`.  Fuelled scanner; one unit of fuel is spent
per output position, so `l.length` fuel always suffices. -/
def removeLitGo (pat : List Char) : Nat → List Char → List Char
  | 0, l => l
  | _ + 1, [] => []
  | fuel + 1, c :: rest =>
    if pat.isPrefixOf (c :: rest) then removeLitGo pat fuel ((c :: rest).drop pat.length)
    else c :: removeLitGo pat fuel rest

def removeLit (pat l : List Char) : List Char := removeLitGo pat l.length l

/-- Replacement of every (leftmost, non-overlapping) occurrence of the
non-empty literal `pat` by `rep`: Python `s.replace(pat, rep)`. -/
def replaceSubGo (pat rep : List Char) : Nat → List Char → List Char
  | 0, l => l
  | _ + 1, [] => []
  | fuel + 1, c :: rest =>
    if pat.isPrefixOf (c :: rest) then
      rep ++ replaceSubGo pat rep fuel ((c :: rest).drop pat.length)
    else c :: replaceSubGo pat rep fuel rest

def replaceSub (pat rep l : List Char) : List Char := replaceSubGo pat rep l.length l

/-- `re.sub(r'\n(?=[А-ЯA-Z])', '$', text)`: a newline directly followed by
an uppercase letter of the class `[А-ЯA-Z]` becomes `$` (the letter, being
inside a lookahead, is kept). -/
def subNlBeforeUpper : List Char → List Char
  | [] => []
  | [c] => [c]
  | a :: b :: rest =>
    if a = '\n' && (('А' ≤ b && b ≤ 'Я') || ('A' ≤ b && b ≤ 'Z')) then
      '$' :: subNlBeforeUpper (b :: rest)
    else a :: subNlBeforeUpper (b :: rest)

/-- `re.sub(r'\d+\.\d+', '', text)`: delete every maximal digit run that
is followed by a dot and at least one digit, together with that dot and
the following digit run; scanning is leftmost, continuing after each
removed match. -/
def removeNumDotNumGo : Nat → List Char → List Char
  | 0, l => l
  | _ + 1, [] => []
  | fuel + 1, c :: rest =>
    if pyIsDigit c then
      match (c :: rest).dropWhile pyIsDigit with
      | '.' :: r2 =>
        if (r2.takeWhile pyIsDigit).isEmpty then c :: removeNumDotNumGo fuel rest
        else removeNumDotNumGo fuel (r2.dropWhile pyIsDigit)
      | _ => c :: removeNumDotNumGo fuel rest
    else c :: removeNumDotNumGo fuel rest

def removeNumDotNum (l : List Char) : List Char := removeNumDotNumGo l.length l

/-- `re.sub(r'\d+\)\s*(\S+)', '', text)`: delete a digit run, a closing
parenthesis, optional whitespace and the following non-whitespace run. -/
def removeNumParenGo : Nat → List Char → List Char
  | 0, l => l
  | _ + 1, [] => []
  | fuel + 1, c :: rest =>
    if pyIsDigit c then
      match (c :: rest).dropWhile pyIsDigit with
      | ')' :: r2 =>
        let r3 := r2.dropWhile pyIsSpace
        if (r3.takeWhile (fun x => !pyIsSpace x)).isEmpty then
          c :: removeNumParenGo fuel rest
        else removeNumParenGo fuel (r3.dropWhile (fun x => !pyIsSpace x))
      | _ => c :: removeNumParenGo fuel rest
    else c :: removeNumParenGo fuel rest

def removeNumParen (l : List Char) : List Char := removeNumParenGo l.length l

/-- `re.sub(r'\d+\.', '', text)`: delete every maximal digit run followed
by a dot, together with the dot. -/
def removeNumDotGo : Nat → List Char → List Char
  | 0, l => l
  | _ + 1, [] => []
  | fuel + 1, c :: rest =>
    if pyIsDigit c then
      match (c :: rest).dropWhile pyIsDigit with
      | '.' :: r2 => removeNumDotGo fuel r2
      | _ => c :: removeNumDotGo fuel rest
    else c :: removeNumDotGo fuel rest

def removeNumDot (l : List Char) : List Char := removeNumDotGo l.length l

/-- Insertion-ordered dict assignment `m[k] = v`: update in place when the
key exists, append otherwise. -/
def upsertA {β : Type} (m : List (List Char × β)) (k : List Char) (v : β) :
    List (List Char × β) :=
  if m.any (fun kv => kv.1 = k) then
    m.map fun kv => if kv.1 = k then (k, v) else kv
  else m ++ [(k, v)]

namespace ParserSpbPU

/-- `parserSpbPU.py` line 13. -/
def titleOfDocument : List Char := chars "РАБОЧАЯ ПРОГРАММА ДИСЦИПЛИНЫ (МОДУЛЯ) \n"

/-- `parserSpbPU.py` lines 11-12. -/
def textForPreviousDisciplines : List Char :=
  chars "Изучение дисциплины базируется на результатах освоения следующих дисциплин: \n"

/-- `parserSpbPU.py` lines 14-15. -/
def textForEducationalUnits : List Char :=
  chars "4.2. Содержание разделов и результаты изучения дисциплины \nРаздел дисциплины Содержание \n"

/-- `parserSpbPU.py` line 16. -/
def endTextForEducationalUnits : List Char := chars "5. Образовательные технологии"

/-- `parserSpbPU.py`, `__refactorText` lines 57-67. -/
def refactorText (t : List Char) : List Char :=
  let t1 := subNlBeforeUpper t
  let t2 := removeNumDotNum t1
  let t3 := removeLit (chars "Темы:") t2
  let t4 := pyStrip (collapseRuns pyIsSpace t3)
  let t5 := removeNumParen t4
  let t6 := replaceChar ';' '$' (replaceSub (chars ". ") (chars "$") t5)
  t6.filter fun c => c ≠ '.'

/-- `parserSpbPU.py`, `__checkText` lines 69-77: some alphabetic character
and more than two characters after stripping. -/
def checkText (t : List Char) : Bool :=
  t.any pyIsAlpha && decide ((pyStrip t).length > 2)

/-- Loop state of the topic segmentation in `readTextFromFileDiscipline`
lines 124-151. -/
structure SpbState where
  nameTopic : List Char
  listUnits : List (List Char)
  textUnits : List Char
  flagTopic : Bool
  flagUnits : Bool
  result : List (List Char × List (List Char))
deriving DecidableEq

def initState : SpbState := ⟨[], [], [], false, false, []⟩

/-- `line and line[0].isdigit()`. -/
def headDigit : List Char → Bool
  | [] => false
  | c :: _ => pyIsDigit c

/-- The extension of `listOfEducationalUnits` computed on finalization
(lines 132-135): refactor the accumulated body, split on `$`, keep the
pieces passing `__checkText`, stripped. -/
def finalUnits (s : SpbState) : List (List Char) :=
  s.listUnits ++ ((splitOnChar '$' (refactorText s.textUnits)).filter checkText).map pyStrip

/-- The topic-name transformation of lines 137-138:
`nameTopic[nameTopic.find(". ") + 2:]` followed by
`re.sub(r'\d+\.', '', nameTopic)`. -/
def transformedName (nt : List Char) : List Char :=
  removeNumDot (pySliceFrom nt (pyFind nt (chars ". ") + 2))

/-- The finalization block of lines 132-139: recompute the unit list, and
when the accumulated heading is non-empty, the units are non-empty and
the heading starts with a digit, assign
`result[transformedName.strip()] = units`. -/
def finalize (s : SpbState) : SpbState :=
  let t := refactorText s.textUnits
  let units := finalUnits s
  if !s.nameTopic.isEmpty && !units.isEmpty && headDigit s.nameTopic then
    { s with
      textUnits := t,
      listUnits := units,
      nameTopic := transformedName s.nameTopic,
      result := upsertA s.result (pyStrip (transformedName s.nameTopic)) units }
  else { s with textUnits := t, listUnits := units }

/-- One iteration of the `for i, line in enumerate(lines)` loop of
lines 129-151.  A line is a boundary when its stripped text is among the
bold-font lines or it is the last line. -/
def step (bold : List (List Char)) (isLast : Bool) (s : SpbState)
    (line : List Char) : SpbState :=
  if pyStrip line ∈ bold || isLast then
    let s1 := if (s.flagTopic && s.flagUnits) || isLast then finalize s else s
    let s2 :=
      if s1.flagUnits then
        { s1 with
          nameTopic := [],
          textUnits := [],
          listUnits := [],
          flagUnits := false }
      else s1
    let s3 := if headDigit line then { s2 with nameTopic := [] } else s2
    { s3 with nameTopic := s3.nameTopic ++ line, flagTopic := true }
  else
    { s with textUnits := s.textUnits ++ line ++ ['\n'], flagUnits := true }

/-- The whole loop; the last element is processed with `isLast = true`
(`i == len(lines) - 1`). -/
def loop (bold : List (List Char)) : List (List Char) → SpbState → SpbState
  | [], s => s
  | [l], s => step bold true s l
  | l :: rest, s => loop bold rest (step bold false s l)

/-- `resultForAllTopics` produced from the split lines of the educational
units block. -/
def topicsFromLines (lines bold : List (List Char)) :
    List (List Char × List (List Char)) :=
  (loop bold lines initState).result

/-- The record type produced per document: previous disciplines and the
topics mapping. -/
abbrev SpbRec := List (List Char) × List (List Char × List (List Char))

/-- `parserSpbPU.py`, `readTextFromFileDiscipline` lines 102-156, the pure
part after PDF text extraction: reject iff the title marker is absent;
otherwise slice the name, the previous-disciplines list and the topics
block (both of the latter may silently degrade through `find() == -1`
slice arithmetic, which is modelled faithfully through `pySlice`). -/
def readTextFromFileDiscipline (fullText : List Char)
    (linesBoldFont : List (List Char)) : Option (List Char × SpbRec) :=
  if !isSubstr titleOfDocument fullText then none
  else
    let idx := (pyFind fullText titleOfDocument).toNat
    let dn0 := fullText.drop (idx + titleOfDocument.length)
    let disciplineName := pyStrip (pySlice dn0 1 (pyFind dn0 (chars "»")))
    let iprev := pyFind fullText textForPreviousDisciplines
    let listPrev :=
      if iprev ≠ -1 then
        let sub0 := fullText.drop (iprev.toNat + textForPreviousDisciplines.length)
        let sub := pySlice sub0 0 (pyFind sub0 (chars "•"))
        ((splitOnChar '\n' sub).filter checkText).map pyStrip
      else []
    let iu := pyFind fullText textForEducationalUnits
    let sub0 := pySliceFrom fullText (iu + (textForEducationalUnits.length : Int))
    let sub := pySlice sub0 0 (pyFind sub0 endTextForEducationalUnits)
    let topics := topicsFromLines (splitOnChar '\n' sub) linesBoldFont
    some (disciplineName, (listPrev, topics))

end ParserSpbPU

/-- Case-insensitive literal match at the start of `t`: `pat` is given in
lowercase and compared against the lowercased prefix of `t`. -/
def ciPrefix (pat t : List Char) : Bool :=
  pat.isPrefixOf ((t.take pat.length).map pyToLower)

namespace ParserMPU

/-- `parserMPU.py` line 18. -/
def titleOfDocument : List Char := chars "РАБОЧАЯ ПРОГРАММА ДИСЦИПЛИНЫ"

/-- `parserMPU.py` line 19. -/
def disciplineNameEndMarker : List Char := chars "Направление подготовки"

/-- `parserMPU.py` lines 21-24. -/
def nextDisciplinesMarkers : List (List Char) :=
  [chars "дисциплинами и практиками ОПОП", chars "дисциплинами и практиками ООП"]

/-- `parserMPU.py` line 26. -/
def contentStartMarker : List Char := chars "Содержание дисциплины"

/-- `parserMPU.py`, `_clean_text`: `re.sub(r'\s+', ' ', text).strip()`. -/
def clean_text (t : List Char) : List Char := pyStrip (collapseRuns pyIsSpace t)

/-- `parserMPU.py`, `_check_text` lines 82-87. -/
def check_text (t : List Char) : Bool :=
  if t.isEmpty || decide (t.length < 3) then false else t.any pyIsAlpha

/-- `parserMPU.py`, `_extract_discipline_name` lines 103-118: the text
between the title marker and `"Направление подготовки"` (or the first
non-empty line when the end marker is missing), stripped of quotes and
cleaned. -/
def extract_discipline_name (full_text : List Char) : List Char :=
  let tp := pyFind full_text titleOfDocument
  if tp = -1 then []
  else
    let after := full_text.drop (tp.toNat + titleOfDocument.length)
    let dp := pyFind after disciplineNameEndMarker
    let name :=
      if dp ≠ -1 then pyStrip (pySlice after 0 dp)
      else (((splitOnChar '\n' after).map pyStrip).find? fun l => !l.isEmpty).getD []
    clean_text (pyStripChars (chars "«»\"") name)

/-- The bullet class of `_extract_next_disciplines` line 156
(`line[0] in '•-*●·'`). -/
def mpuBulletClass (c : Char) : Bool :=
  c = '•' || c = '-' || c = '*' || c = '●' || c = '·'

/-- One line of the block scanned by `_extract_next_disciplines` lines
151-166: bullet lines are stripped of their bullet prefix and trailing
semicolons, semicolon lines longer than ten characters are split on
semicolons. -/
def mpuLineItems (line : List Char) : List (List Char) :=
  let l := pyStrip line
  if l.isEmpty then []
  else if (match l with | c :: _ => mpuBulletClass c | [] => false)
      || (chars "- ").isPrefixOf l || (chars "* ").isPrefixOf l then
    let clean := dropEndWhile (fun c => c = ';')
      (pyStrip (l.dropWhile fun c => mpuBulletClass c || pyIsSpace c))
    if check_text clean then [clean] else []
  else if l.any (fun c => c = ';') && decide (l.length > 10) then
    ((splitOnChar ';' l).map pyStrip).filter check_text
  else []

/-- `parserMPU.py`, `_extract_next_disciplines` lines 120-168: find the
first configured marker (in list order), then the colon after it, take
the block up to `"\n3."` / `"\n3 "` (or the end), and collect the items
of its lines. -/
def extract_next_disciplines (full_text : List Char) : List (List Char) :=
  match nextDisciplinesMarkers.find? (fun m => pyFind full_text m != -1) with
  | none => []
  | some marker =>
    let after := full_text.drop ((pyFind full_text marker).toNat + marker.length)
    let cp := pyFind after (chars ":")
    if cp = -1 then []
    else
      let afterColon := after.drop (cp.toNat + 1)
      let s0 := pyFind afterColon (chars "\n3.")
      let s1 := if s0 = -1 then pyFind afterColon (chars "\n3 ") else s0
      let s2 := if s1 = -1 then (afterColon.length : Int) else s1
      let block := pySlice afterColon 0 s2
      (splitOnChar '\n' block).foldl (fun acc l => acc ++ mpuLineItems l) []

/-- Length of a match of the abbreviation pattern
`L1\.\s*L2\.\s*...\.Ln\.` (case-insensitive letters, greedy whitespace
between the dotted letters) at the start of `t`; these are the patterns
`т\.\s*д\.`, `т\.\s*п\.`, `и\.\s*т\.\s*д\.`, `и\.\s*т\.\s*п\.` of
`_split_into_sentences`. -/
def abbrevLen : List Char → List Char → Option Nat
  | [l], c :: '.' :: _ => if pyToLower c = l then some 2 else none
  | l :: ls@(_ :: _), c :: '.' :: r =>
    if pyToLower c = l then
      let w := (r.takeWhile pyIsSpace).length
      match abbrevLen ls (r.drop w) with
      | some n => some (2 + w + n)
      | none => none
    else none
  | _, _ => none

/-- `re.sub` of one abbreviation pattern by a placeholder string. -/
def replaceAbbrevGo (letters rep : List Char) : Nat → List Char → List Char
  | 0, l => l
  | _ + 1, [] => []
  | fuel + 1, c :: rest =>
    match abbrevLen letters (c :: rest) with
    | some n => rep ++ replaceAbbrevGo letters rep fuel ((c :: rest).drop n)
    | none => c :: replaceAbbrevGo letters rep fuel rest

def replaceAbbrev (letters rep l : List Char) : List Char :=
  replaceAbbrevGo letters rep l.length l

/-- `re.split(r'\.\s+', text)`: split at a dot followed by at least one
whitespace character (the separator is consumed). -/
def splitDotWsGo : Nat → List Char → List Char → List (List Char)
  | 0, cur, l => [cur.reverse ++ l]
  | _ + 1, cur, [] => [cur.reverse]
  | fuel + 1, cur, c :: rest =>
    if c = '.' && !(rest.takeWhile pyIsSpace).isEmpty then
      cur.reverse :: splitDotWsGo fuel [] (rest.dropWhile pyIsSpace)
    else splitDotWsGo fuel (c :: cur) rest

def splitDotWs (l : List Char) : List (List Char) := splitDotWsGo l.length [] l

/-- `re.sub(r'^\d+\.?\d*\s*', '', sent)`: strip a leading digit run, an
optional dot, a digit run and whitespace. -/
def stripLeadingNum : List Char → List Char
  | [] => []
  | l@(c :: _) =>
    if pyIsDigit c then
      let r1 := l.dropWhile pyIsDigit
      let r2 := match r1 with
        | '.' :: r => r.dropWhile pyIsDigit
        | _ => r1
      r2.dropWhile pyIsSpace
    else l

/-- `parserMPU.py`, `_split_into_sentences` lines 170-194: protect the
abbreviations `т.д.`/`т.п.`/`и.т.д.`/`и.т.п.` by placeholders, split on
`\.\s+`, restore the placeholders (in the same order as the source, so
`ИТД` is already broken by the earlier `ТД` restoration — the quirk is
preserved), strip leading numbering, clean, and keep sentences longer
than five characters that pass `_check_text`. -/
def split_into_sentences (text : List Char) : List (List Char) :=
  if text.isEmpty then []
  else
    let t := replaceChar '\n' ' ' text
    let t := replaceAbbrev [chars "т", chars "д"].flatten (chars "ТД") t
    let t := replaceAbbrev [chars "т", chars "п"].flatten (chars "ТП") t
    let t := replaceAbbrev [chars "и", chars "т", chars "д"].flatten (chars "ИТД") t
    let t := replaceAbbrev [chars "и", chars "т", chars "п"].flatten (chars "ИТП") t
    let ss := (splitDotWs t).map fun s =>
      replaceSub (chars "ИТП") (chars "и т.п.")
        (replaceSub (chars "ИТД") (chars "и т.д.")
          (replaceSub (chars "ТП") (chars "т.п.")
            (replaceSub (chars "ТД") (chars "т.д.") s)))
    (ss.map fun s => clean_text (stripLeadingNum (pyStrip s))).filter
      fun s => check_text s && decide (s.length > 5)

/-- Length of the case-insensitive literal `Раздел` or `Тема` at the
start of `t` (the alternation `(?:Раздел|Тема)` of the topic pattern). -/
def anchorLit (t : List Char) : Option Nat :=
  if ciPrefix (chars "раздел") t then some 6
  else if ciPrefix (chars "тема") t then some 4
  else none

/-- Does `(?:Раздел|Тема)\s*\d+` match at the start of `t`?  This is the
anchor of the topic pattern of `_extract_topics` and of its lookahead. -/
def isAnchor (t : List Char) : Bool :=
  match anchorLit t with
  | some l => !(((t.drop l).dropWhile pyIsSpace).takeWhile pyIsDigit).isEmpty
  | none => false

/-- Number of characters consumed by
`(?:Раздел|Тема)\s*(\d+)[\.:\-]?\s*` at the start of `t` (assumes
`isAnchor t`). -/
def headEnd (t : List Char) : Nat :=
  match anchorLit t with
  | some l =>
    let r1 := t.drop l
    let w1 := (r1.takeWhile pyIsSpace).length
    let r2 := r1.drop w1
    let ds := (r2.takeWhile pyIsDigit).length
    let r3 := r2.drop ds
    let opt : Nat := match r3 with
      | c :: _ => if c = '.' || c = ':' || c = '-' then 1 else 0
      | [] => 0
    let w2 := ((r3.drop opt).takeWhile pyIsSpace).length
    l + w1 + ds + opt + w2
  | none => 0

/-- Index of the first anchor position in `t`. -/
def nextAnchorGo : Nat → Nat → List Char → Option Nat
  | 0, _, _ => none
  | _, _, [] => none
  | fuel + 1, i, l@(_ :: rest) =>
    if isAnchor l then some i else nextAnchorGo fuel (i + 1) rest

def nextAnchor (t : List Char) : Option Nat := nextAnchorGo (t.length + 1) 0 t

/-- The `group(2)` contents of the successive matches of
`(?s)(?:Раздел|Тема)\s*(\d+)[\.:\-]?\s*(.*?)(?=(?:Раздел|Тема)\s*\d+|\Z)`
(IGNORECASE) produced by `finditer`: each match starts at the next
anchor, its lazy body runs to the following anchor or to the end. -/
def topicMatchesGo : Nat → List Char → List (List Char)
  | 0, _ => []
  | fuel + 1, t =>
    match nextAnchor t with
    | none => []
    | some a =>
      let t1 := t.drop a
      let t2 := t1.drop (headEnd t1)
      match nextAnchor t2 with
      | none => [t2]
      | some q => t2.take q :: topicMatchesGo fuel (t2.drop q)

def topicMatches (t : List Char) : List (List Char) :=
  topicMatchesGo (t.length + 1) t

/-- `parserMPU.py`, `_extract_topics` lines 196-233: locate the content
block (three start markers in priority order, the end position of claim
C5), run the topic pattern over it, and keep each topic whose sentence
list has at least two entries — the first sentence becomes the title,
the rest the subtopics. -/
def extract_topics (full_text : List Char) :
    List (List Char × List (List Char)) :=
  let cp0 := pyFind full_text (chars "3.3 Содержание дисциплины")
  let cp1 := if cp0 = -1 then pyFind full_text (chars "3.3 Содержание") else cp0
  let cp2 := if cp1 = -1 then pyFind full_text contentStartMarker else cp1
  if cp2 = -1 then []
  else
    let cpos := cp2.toNat
    let content := pySlice full_text (cpos : Int) ((endPos full_text cpos : Nat) : Int)
    (topicMatches content).foldl
      (fun topics g =>
        match split_into_sentences (pyStrip g) with
        | [] => topics
        | title :: subs => if subs.isEmpty then topics else upsertA topics title subs)
      []

/-- The per-document record of `_read_discipline_file`:
`previousDisciplines` (always empty in this parser), `nextDisciplines`
and `topics`. -/
abbrev MpuRec :=
  List (List Char) × List (List Char) × List (List Char × List (List Char))

/-- The file-name fallback of `_read_discipline_file` lines 246-249:
`basename.replace('.pdf', '')`, then `re.sub(r'[B0-9._]+', '', name)`,
then `replace('_', ' ').strip()` (the underscores were already removed
by the preceding substitution; the source's quirk is preserved). -/
def nameFromFile (base : List Char) : List Char :=
  let n1 := replaceSub (chars ".pdf") [] base
  let n2 := n1.filter fun c => !(c = 'B' || pyIsDigit c || c = '.' || c = '_')
  pyStrip (replaceChar '_' ' ' n2)

/-- `parserMPU.py`, `_read_discipline_file` lines 235-261, the pure part
after PDF text extraction (`base` is the file's base name used by the
fallback): reject when the text is empty or the title marker is absent;
otherwise always produce a record, with missing sections degrading to
empty fields. -/
def read_discipline_file (full_text base : List Char) :
    Option (List Char × MpuRec) :=
  if full_text.isEmpty then none
  else if !isSubstr titleOfDocument full_text then none
  else
    let name0 := extract_discipline_name full_text
    let name := if name0.isEmpty then nameFromFile base else name0
    some (name, ([], extract_next_disciplines full_text, extract_topics full_text))

end ParserMPU

namespace ParserGUAP

/-- Character class `[А-Яа-яA-Za-z\s\-]` of patterns 3 and 4 of
`_extract_discipline_name` (`Ё`/`ё` lie outside the two contiguous
Cyrillic ranges and are excluded, exactly as in the source pattern). -/
def p34Class (c : Char) : Bool :=
  ('А' ≤ c && c ≤ 'Я') || ('а' ≤ c && c ≤ 'я') ||
  ('A' ≤ c && c ≤ 'Z') || ('a' ≤ c && c ≤ 'z') || pyIsSpace c || c = '-'

/-- Match of `LIT\s*[«"]\s*([^»"]+)\s*[»"]` (IGNORECASE, `lit` given in
lowercase) at the start of `t`, returning `group(1)`.  The closing
quote of a match is necessarily the first `»`/`"` after the opening
one, because the capture class excludes both; backtracking over the
greedy inner `\s*` leaves the capture running from the end of the
whitespace run (capped one short of the closing quote, so the capture
is non-empty) up to the closing quote. -/
def quotedGroupAt (lit t : List Char) : Option (List Char) :=
  if !ciPrefix lit t then none
  else
    let r1 := t.drop lit.length
    let r2 := r1.drop (r1.takeWhile pyIsSpace).length
    match r2 with
    | c :: r3 =>
      if c = '«' || c = '"' then
        let q := r3.findIdx fun d => d = '»' || d = '"'
        if q = r3.length || q = 0 then none
        else some ((r3.take q).drop (min (r3.takeWhile pyIsSpace).length (q - 1)))
      else none
    | [] => none

/-- `re.search` scan for the quoted patterns: first start position with
a match. -/
def searchQuotedGo (lit : List Char) : Nat → List Char → Option (List Char)
  | 0, _ => none
  | _ + 1, [] => none
  | fuel + 1, l@(_ :: rest) =>
    match quotedGroupAt lit l with
    | some g => some g
    | none => searchQuotedGo lit fuel rest

def searchQuoted (lit t : List Char) : Option (List Char) :=
  searchQuotedGo lit (t.length + 1) t

/-- The `\s+TRAIL` tail of patterns 3 and 4 at the start of `t`
(IGNORECASE, `trail` given in lowercase): at least one whitespace
character, then the literal. -/
def tailMatchAt (trail t : List Char) : Bool :=
  let w := (t.takeWhile pyIsSpace).length
  decide (0 < w) && ciPrefix trail (t.drop w)

/-- The lazy capture `([А-Яа-яA-Za-z\s\-]+?)` of patterns 3 and 4: try
capture lengths `k, k+1, ...` in order; once a prefix leaves the class
every longer capture does too, so the scan stops. -/
def p34Capture (trail t : List Char) : Nat → Nat → Option (List Char)
  | 0, _ => none
  | fuel + 1, k =>
    let cap := t.take k
    if cap.length < k then none
    else if !cap.all p34Class then none
    else if tailMatchAt trail (t.drop k) then some cap
    else p34Capture trail t fuel (k + 1)

/-- The greedy `\s+` after `Дисциплина` in patterns 3 and 4: try
whitespace lengths `a, a-1, ..., 1` (the initial `a` is the run
length), with the lazy capture inside each attempt. -/
def p34Outer (trail r1 : List Char) : Nat → Option (List Char)
  | 0 => none
  | a + 1 =>
    match p34Capture trail (r1.drop (a + 1)) (r1.drop (a + 1)).length 1 with
    | some g => some g
    | none => p34Outer trail r1 a

/-- Match of `Дисциплина\s+([А-Яа-яA-Za-z\s\-]+?)\s+TRAIL` (IGNORECASE)
at the start of `t`, returning `group(1)`. -/
def p34At (trail t : List Char) : Option (List Char) :=
  if !ciPrefix (chars "дисциплина") t then none
  else
    let r1 := t.drop 10
    p34Outer trail r1 (r1.takeWhile pyIsSpace).length

/-- `re.search` scan for patterns 3 and 4. -/
def searchP34Go (trail : List Char) : Nat → List Char → Option (List Char)
  | 0, _ => none
  | _ + 1, [] => none
  | fuel + 1, l@(_ :: rest) =>
    match p34At trail l with
    | some g => some g
    | none => searchP34Go trail fuel rest

def searchP34 (trail t : List Char) : Option (List Char) :=
  searchP34Go trail (t.length + 1) t

/-- Pattern 1 of `_extract_discipline_name`:
`РАБОЧАЯ ПРОГРАММА ДИСЦИПЛИНЫ\s*[«"]\s*([^»"]+)\s*[»"]`. -/
def search1 (t : List Char) : Option (List Char) :=
  searchQuoted (chars "рабочая программа дисциплины") t

/-- Pattern 2: `Дисциплина\s*[«"]\s*([^»"]+)\s*[»"]`. -/
def search2 (t : List Char) : Option (List Char) :=
  searchQuoted (chars "дисциплина") t

/-- Pattern 3: `Дисциплина\s+([А-Яа-яA-Za-z\s\-]+?)\s+входит`. -/
def search3 (t : List Char) : Option (List Char) :=
  searchP34 (chars "входит") t

/-- Pattern 4: `Дисциплина\s+([А-Яа-яA-Za-z\s\-]+?)\s+реализуется`. -/
def search4 (t : List Char) : Option (List Char) :=
  searchP34 (chars "реализуется") t

/-- `parserGUAP.py` lines 214-219: a pattern's match is used only when
its cleaned group is non-empty and longer than three characters;
otherwise the next pattern is tried. -/
def tryPattern (g : Option (List Char)) : Option (List Char) :=
  match g with
  | some g =>
    let n := clean_text g
    if !n.isEmpty && decide (n.length > 3) then some n else none
  | none => none

/-- `os.path.basename`: the part after the last `/`. -/
def basename (p : List Char) : List Char :=
  (p.reverse.takeWhile fun c => c ≠ '/').reverse

/-- The stem of `os.path.splitext`: cut at the last dot, unless every
dot lies in the run of leading dots. -/
def splitextStem (b : List Char) : List Char :=
  let ld := (b.takeWhile fun c => c = '.').length
  let k := b.reverse.findIdx fun c => c = '.'
  if k = b.length then b
  else
    let j := b.length - 1 - k
    if ld ≤ j then b.take j else b

/-- Python `str.title` restricted to the repertoire of `pyToUpper`:
a letter after a non-letter is uppercased, a letter after a letter is
lowercased. -/
def pyTitleGo : Bool → List Char → List Char
  | _, [] => []
  | prevCased, c :: rest =>
    if pyIsAlpha c then
      (if prevCased then pyToLower c else pyToUpper c) :: pyTitleGo true rest
    else c :: pyTitleGo false rest

def pyTitle (l : List Char) : List Char := pyTitleGo false l

/-- `parserGUAP.py` lines 221-224, the file-name fallback: the stem of
the base name, a leading `rpd_` and a trailing `_<digits>` removed,
underscores turned into spaces, title-cased. -/
def fallbackName (path : List Char) : List Char :=
  let f0 := splitextStem (basename path)
  let f1 := if (chars "rpd_").isPrefixOf f0 then f0.drop 4 else f0
  let r := f1.reverse
  let ds := (r.takeWhile pyIsDigit).length
  let f2 := if decide (0 < ds) && decide ((r.drop ds).head? = some '_')
    then (r.drop (ds + 1)).reverse else f1
  pyTitle (replaceChar '_' ' ' f2)

/-- `parserGUAP.py`, `_extract_discipline_name` lines 193-224: the four
patterns in order, each match kept only if its cleaned group passes the
length check, else the file-name fallback. -/
def extract_discipline_name (text path : List Char) : List Char :=
  match tryPattern (search1 text) with
  | some n => n
  | none =>
    match tryPattern (search2 text) with
    | some n => n
    | none =>
      match tryPattern (search3 text) with
      | some n => n
      | none =>
        match tryPattern (search4 text) with
        | some n => n
        | none => fallbackName path

/-- `parserGUAP.py`, `_read_discipline_from_file` lines 174-177: the
file is rejected exactly when the extracted name is falsy. -/
def guapRejects (text path : List Char) : Bool :=
  (extract_discipline_name text path).isEmpty

/-- The per-discipline record of `parserGUAP.py` lines 181-185:
`previousDisciplines` and `nextDisciplines` (`topics` is the constant
empty mapping). -/
abbrev GuapRec := List (List Char) × List (List Char)

/-- `parserGUAP.py`, `_load_single_direction` lines 135-145, the
accumulation after per-file parsing (file listing and PDF extraction
are effects outside the embedding, so the per-file outcomes are a
parameter): each successful file merges its one-entry mapping with
`dict.update`, and the direction is stored only when the accumulated
mapping is non-empty. -/
def load_single_direction {β : Type}
    (dirs : List (List Char × List (List Char × β)))
    (dirName : List Char) (outcomes : List (Option (List Char × β))) :
    List (List Char × List (List Char × β)) :=
  let d := outcomes.foldl
    (fun acc o => match o with
      | some (k, v) => upsertA acc k v
      | none => acc) []
  if d.isEmpty then dirs else upsertA dirs dirName d

end ParserGUAP

namespace ParserSpbPU

/-- `parserSpbPU.py`, `loadDirectionOfStudy` lines 18-36 (directory
listing and file reading are effects outside the embedding, so the
per-file outcomes — `None, None` or a name/record pair — are a
parameter): an already-present direction is left untouched; otherwise
the direction key is assigned unconditionally, holding the outcomes
whose name is truthy. -/
def loadDirectionOfStudy {β : Type}
    (dirs : List (List Char × List (List Char × β)))
    (dirName : List Char) (outcomes : List (Option (List Char × β))) :
    List (List Char × List (List Char × β)) :=
  if dirs.any (fun kv => kv.1 = dirName) then dirs
  else
    dirs ++ [(dirName, outcomes.filterMap fun o =>
      match o with
      | some (n, a) => if n.isEmpty then none else some (n, a)
      | none => none)]

end ParserSpbPU

namespace ParserLETI

/-- `parserLETI.py`, `start` lines 146-170, one directory iteration
(file listing and `readPdf` are effects outside the embedding, so the
per-file outcomes are a parameter; a missing directory yields no
outcomes): `directionsOfStudy[directoryName] = []` runs before any
existence check and the successful outcomes are appended, so the key is
created unconditionally, possibly with an empty list. -/
def startDirection {β : Type} (dirs : List (List Char × List β))
    (dirName : List Char) (outcomes : List (Option β)) :
    List (List Char × List β) :=
  upsertA dirs dirName (outcomes.filterMap id)

end ParserLETI

/-! ## Lemmas: whitespace machinery -/

theorem collapseRuns_two (p : Char → Bool) (a b : Char) (rest : List Char) :
    collapseRuns p (a :: b :: rest) =
      if (p a && p b) = true then collapseRuns p (b :: rest)
      else (if p a = true then ' ' else a) :: collapseRuns p (b :: rest) := rfl

theorem spacedOk_two (p : Char → Bool) (a b : Char) (rest : List Char) :
    spacedOk p (a :: b :: rest) =
      ((!p a || a = ' ') && !(p a && p b) && spacedOk p (b :: rest)) := rfl

theorem bool_eq_false {b : Bool} (h : ¬b = true) : b = false := by
  cases hb : b
  · rfl
  · exact absurd hb h

theorem collapseRuns_cons (p : Char → Bool) (x : Char) (xs : List Char) :
    ∃ t, collapseRuns p (x :: xs) = (if p x then ' ' else x) :: t := by
  induction xs generalizing x with
  | nil => exact ⟨[], by by_cases hx : p x = true <;> simp [collapseRuns, hx]⟩
  | cons b rest ih =>
    by_cases h : (p x && p b) = true
    · obtain ⟨t, ht⟩ := ih b
      have hx : p x = true := by simpa using (Bool.and_elim_left h)
      have hb : p b = true := by simpa using (Bool.and_elim_right h)
      exact ⟨t, by rw [collapseRuns_two, if_pos h, ht, if_pos hx, if_pos hb]⟩
    · exact ⟨collapseRuns p (b :: rest), by rw [collapseRuns_two, if_neg h]⟩

theorem mem_collapseRuns {p : Char → Bool} {c : Char} :
    ∀ {l : List Char}, c ∈ collapseRuns p l → (c ∈ l ∧ p c = false) ∨ c = ' '
  | [], h => by simp [collapseRuns] at h
  | [a], h => by
    by_cases ha : p a = true
    · right; simpa [collapseRuns, ha] using h
    · left
      simp [collapseRuns, ha] at h
      simp [h, bool_eq_false ha]
  | a :: b :: rest, h => by
    rw [collapseRuns_two] at h
    by_cases hab : (p a && p b) = true
    · rw [if_pos hab] at h
      rcases mem_collapseRuns h with ⟨hm, hc⟩ | hc
      · exact Or.inl ⟨List.mem_cons_of_mem _ hm, hc⟩
      · exact Or.inr hc
    · rw [if_neg hab] at h
      rcases List.mem_cons.mp h with hc | hm
      · by_cases ha : p a = true
        · rw [if_pos ha] at hc
          exact Or.inr hc
        · rw [if_neg ha] at hc
          subst hc
          exact Or.inl ⟨List.mem_cons_self _ _, bool_eq_false ha⟩
      · rcases mem_collapseRuns hm with ⟨hm', hc'⟩ | hc'
        · exact Or.inl ⟨List.mem_cons_of_mem _ hm', hc'⟩
        · exact Or.inr hc'

theorem spacedOk_head {p : Char → Bool} {a : Char} {l : List Char}
    (h : spacedOk p (a :: l) = true) : (!p a || a = ' ') = true := by
  cases l with
  | nil => simpa [spacedOk] using h
  | cons b t =>
    rw [spacedOk_two] at h
    simp only [Bool.and_eq_true] at h
    tauto

theorem spacedOk_pair {p : Char → Bool} {a b : Char} {l : List Char}
    (h : spacedOk p (a :: b :: l) = true) : (p a && p b) = false := by
  rw [spacedOk_two] at h
  simp only [Bool.and_eq_true, Bool.not_eq_true'] at h
  tauto

theorem spacedOk_tail {p : Char → Bool} {a : Char} {l : List Char}
    (h : spacedOk p (a :: l) = true) : spacedOk p l = true := by
  cases l with
  | nil => rfl
  | cons b t =>
    rw [spacedOk_two] at h
    simp only [Bool.and_eq_true] at h
    tauto

theorem spacedOk_collapseRuns (p : Char → Bool) (hp : p ' ' = true) :
    ∀ l : List Char, spacedOk p (collapseRuns p l) = true
  | [] => by simp [collapseRuns, spacedOk]
  | [a] => by by_cases ha : p a = true <;> simp [collapseRuns, spacedOk, ha]
  | a :: b :: rest => by
    have ihtail := spacedOk_collapseRuns p hp (b :: rest)
    rw [collapseRuns_two]
    by_cases hab : (p a && p b) = true
    · rwa [if_pos hab]
    · rw [if_neg hab]
      obtain ⟨t, ht⟩ := collapseRuns_cons p b rest
      rw [ht] at ihtail ⊢
      rw [spacedOk_two]
      by_cases ha : p a = true
      · have hb : p b = false := by
          cases hpb : p b
          · rfl
          · exact absurd (by simp [ha, hpb]) hab
        rw [hb, if_neg (by simp)] at ihtail
        simp [ha, hp, hb, ihtail]
      · have ha' : p a = false := bool_eq_false ha
        by_cases hb : p b = true
        · rw [hb, if_pos rfl] at ihtail
          simp [ha', hb, hp, ihtail]
        · have hb' : p b = false := bool_eq_false hb
          rw [hb', if_neg (by simp)] at ihtail
          simp [ha', hb', ihtail]

theorem collapseRuns_eq_self {p : Char → Bool} :
    ∀ {l : List Char}, spacedOk p l = true → collapseRuns p l = l
  | [], _ => rfl
  | [a], h => by
    by_cases ha : p a = true
    · have : a = ' ' := by simpa [spacedOk, ha] using h
      simp [collapseRuns, ha, this]
    · simp [collapseRuns, ha]
  | a :: b :: rest, h => by
    have h1 : (!p a || a = ' ') = true := spacedOk_head h
    have h2 : (p a && p b) = false := spacedOk_pair h
    have h3 : collapseRuns p (b :: rest) = b :: rest :=
      collapseRuns_eq_self (spacedOk_tail h)
    rw [collapseRuns_two, if_neg (by simp [h2]), h3]
    by_cases ha : p a = true
    · have ha' : a = ' ' := by simpa [ha] using h1
      rw [if_pos ha, ha']
    · rw [if_neg ha]

theorem spacedOk_dropWhile {p : Char → Bool} (q : Char → Bool) :
    ∀ {l : List Char}, spacedOk p l = true → spacedOk p (l.dropWhile q) = true
  | [], h => h
  | a :: t, h => by
    by_cases hq : q a = true
    · rw [List.dropWhile_cons, if_pos hq]
      exact spacedOk_dropWhile q (spacedOk_tail h)
    · rwa [List.dropWhile_cons, if_neg hq]

theorem dropEndWhile_cons (p : Char → Bool) (a : Char) (t : List Char) :
    dropEndWhile p (a :: t) =
      if (dropEndWhile p t).isEmpty then (if p a then [] else [a])
      else a :: dropEndWhile p t := rfl

theorem dropEndWhile_nil_or_head (p : Char → Bool) :
    ∀ l : List Char, dropEndWhile p l = [] ∨ (dropEndWhile p l).head? = l.head?
  | [] => Or.inl rfl
  | a :: t => by
    cases hr : dropEndWhile p t with
    | nil =>
      by_cases hp : p a = true
      · exact Or.inl (by simp [dropEndWhile_cons, hr, hp])
      · exact Or.inr (by simp [dropEndWhile_cons, hr, hp])
    | cons b r => exact Or.inr (by simp [dropEndWhile_cons, hr])

theorem mem_dropEndWhile {p : Char → Bool} {c : Char} :
    ∀ {l : List Char}, c ∈ dropEndWhile p l → c ∈ l
  | a :: t, h => by
    cases hr : dropEndWhile p t with
    | nil =>
      rw [dropEndWhile_cons, hr] at h
      by_cases hp : p a = true <;> simp [hp] at h
      simp [h]
    | cons b r =>
      rw [dropEndWhile_cons, hr] at h
      simp only [List.isEmpty_cons, Bool.false_eq_true, if_false] at h
      rcases List.mem_cons.mp h with h | h
      · simp [h]
      · have hm : c ∈ dropEndWhile p t := by
          rw [hr]
          exact h
        exact List.mem_cons_of_mem _ (mem_dropEndWhile hm)

theorem spacedOk_dropEndWhile {p : Char → Bool} (q : Char → Bool) :
    ∀ {l : List Char}, spacedOk p l = true → spacedOk p (dropEndWhile q l) = true
  | [], h => h
  | a :: t, h => by
    cases hr : dropEndWhile q t with
    | nil =>
      by_cases hp : q a = true
      · simp [dropEndWhile_cons, hr, hp, spacedOk]
      · have := spacedOk_head h
        simp [dropEndWhile_cons, hr, hp, spacedOk, this]
    | cons b r =>
      have htail : spacedOk p (b :: r) = true := by
        rw [← hr]
        exact spacedOk_dropEndWhile q (spacedOk_tail h)
      cases t with
      | nil => simp [dropEndWhile] at hr
      | cons c t' =>
        have hb : b = c := by
          rcases dropEndWhile_nil_or_head q (c :: t') with h0 | h0
          · rw [h0] at hr; cases hr
          · rw [hr] at h0; simpa using h0
        subst hb
        have h1 : (!p a || a = ' ') = true := spacedOk_head h
        have h2 : (p a && p b) = false := spacedOk_pair h
        rw [dropEndWhile_cons, hr]
        simp only [List.isEmpty_cons, Bool.false_eq_true, if_false]
        rw [spacedOk_two, h1, h2, htail]
        simp

theorem getLast?_dropEndWhile {p : Char → Bool} {c : Char} :
    ∀ {l : List Char}, (dropEndWhile p l).getLast? = some c → p c = false
  | a :: t, h => by
    cases hr : dropEndWhile p t with
    | nil =>
      rw [dropEndWhile_cons, hr] at h
      by_cases hp : p a = true <;> simp [hp] at h
      rw [← h]
      simpa using hp
    | cons b r =>
      rw [dropEndWhile_cons, hr] at h
      simp only [List.isEmpty_cons, Bool.false_eq_true, if_false] at h
      rw [List.getLast?_cons_cons] at h
      exact getLast?_dropEndWhile (l := t) (by rw [hr]; exact h)

theorem dropEndWhile_eq_self {p : Char → Bool} :
    ∀ {l : List Char}, (∀ c, l.getLast? = some c → p c = false) → dropEndWhile p l = l
  | [], _ => rfl
  | [a], h => by
    have := h a (by simp)
    simp [dropEndWhile, this]
  | a :: b :: t, h => by
    have hbt : dropEndWhile p (b :: t) = b :: t :=
      dropEndWhile_eq_self (fun c hc => h c (by rwa [List.getLast?_cons_cons]))
    rw [dropEndWhile_cons, hbt]
    simp

theorem dropWhile_eq_self_of_head {p : Char → Bool} {l : List Char}
    (h : ∀ c, l.head? = some c → p c = false) : l.dropWhile p = l := by
  cases l with
  | nil => rfl
  | cons a t => rw [List.dropWhile_cons, if_neg (by simp [h a rfl])]

theorem head?_dropWhile_false {p : Char → Bool} {l : List Char} {c : Char}
    (h : (l.dropWhile p).head? = some c) : p c = false := by
  have := List.head?_dropWhile_not p l
  rw [h] at this
  exact this

theorem pyStrip_idem (l : List Char) : pyStrip (pyStrip l) = pyStrip l := by
  unfold pyStrip
  have h1 : (dropEndWhile pyIsSpace (l.dropWhile pyIsSpace)).dropWhile pyIsSpace =
      dropEndWhile pyIsSpace (l.dropWhile pyIsSpace) := by
    apply dropWhile_eq_self_of_head
    intro c hc
    rcases dropEndWhile_nil_or_head pyIsSpace (l.dropWhile pyIsSpace) with h0 | h0
    · rw [h0] at hc; cases hc
    · rw [h0] at hc; exact head?_dropWhile_false hc
  rw [h1]
  apply dropEndWhile_eq_self
  intro c hc
  exact getLast?_dropEndWhile hc

theorem spacedOk_pyStrip {p : Char → Bool} {l : List Char}
    (h : spacedOk p l = true) : spacedOk p (pyStrip l) = true :=
  spacedOk_dropEndWhile _ (spacedOk_dropWhile _ h)

theorem mem_pyStrip {c : Char} {l : List Char} (h : c ∈ pyStrip l) : c ∈ l :=
  ((List.dropWhile_suffix pyIsSpace).sublist.subset) (mem_dropEndWhile h)

/-! ## Lemmas: LETI text normalization (claim C3) -/

theorem map_eq_self_of_mem {g : Char → Char} {l : List Char}
    (h : ∀ c ∈ l, g c = c) : l.map g = l := by
  rw [List.map_congr_left h]
  exact List.map_id' l

theorem replaceChar_eq_self {a b : Char} {l : List Char} (h : a ∉ l) :
    replaceChar a b l = l := by
  apply map_eq_self_of_mem
  intro c hc
  rw [if_neg]
  intro he
  exact h (he ▸ hc)

theorem removeSpaceNewline_eq_self :
    ∀ {l : List Char}, '\n' ∉ l → removeSpaceNewline l = l
  | [], _ => rfl
  | [c], _ => rfl
  | a :: b :: rest, h => by
    have hb : b ≠ '\n' := fun he => h (by simp [he])
    have : (a = ' ' && b = '\n') = false := by simp [hb]
    rw [removeSpaceNewline, if_neg (by simp [this, hb])]
    have htail : '\n' ∉ b :: rest := fun hm => h (List.mem_cons_of_mem _ hm)
    rw [removeSpaceNewline_eq_self htail]

namespace ParserLETI

theorem cleanPdfSpaces_spacedOk (t : List Char) :
    spacedOk (fun c => c = ' ') (cleanPdfSpaces t) = true :=
  spacedOk_pyStrip (spacedOk_collapseRuns _ (by decide) _)

theorem cleanPdfSpaces_no_pdfSpace (t : List Char) :
    ∀ c ∈ cleanPdfSpaces t, c ∉ pdfSpaces := by
  intro c hc hmem
  have h1 := mem_pyStrip hc
  rcases mem_collapseRuns h1 with ⟨h2, _⟩ | h2
  · rcases List.mem_map.mp h2 with ⟨c', _, hgc⟩
    by_cases hin : c' ∈ pdfSpaces
    · rw [if_pos hin] at hgc
      rw [← hgc] at hmem
      exact absurd hmem (by decide)
    · rw [if_neg hin] at hgc
      exact hin (hgc ▸ hmem)
  · rw [h2] at hmem
    exact absurd hmem (by decide)

theorem cleanPdfSpaces_idem (t : List Char) :
    cleanPdfSpaces (cleanPdfSpaces t) = cleanPdfSpaces t := by
  have hmap : (cleanPdfSpaces t).map
      (fun c => if c ∈ pdfSpaces then ' ' else c) = cleanPdfSpaces t := by
    apply map_eq_self_of_mem
    intro c hc
    exact if_neg (cleanPdfSpaces_no_pdfSpace t c hc)
  have hcol : collapseRuns (fun c => c = ' ') (cleanPdfSpaces t) = cleanPdfSpaces t :=
    collapseRuns_eq_self (cleanPdfSpaces_spacedOk t)
  have hstrip : pyStrip (cleanPdfSpaces t) = cleanPdfSpaces t := by
    unfold cleanPdfSpaces
    exact pyStrip_idem _
  show pyStrip (collapseRuns _ ((cleanPdfSpaces t).map _)) = cleanPdfSpaces t
  rw [hmap, hcol, hstrip]

theorem mem_collapse_pyIsSpace {c : Char} {s : List Char}
    (hsp : pyIsSpace c = true) (hne : c ≠ ' ') : c ∉ collapseRuns pyIsSpace s := by
  intro hmem
  rcases mem_collapseRuns hmem with ⟨_, hf⟩ | h2
  · rw [hsp] at hf; cases hf
  · exact hne h2

theorem normalizeSpaces_eq {s : List Char} (h : softHyphen ∉ s) :
    normalizeSpaces s = pyStrip (collapseRuns pyIsSpace s) := by
  unfold normalizeSpaces
  have hsh : softHyphen ∉ collapseRuns pyIsSpace s := by
    intro hmem
    rcases mem_collapseRuns hmem with ⟨hm, _⟩ | h2
    · exact h hm
    · exact absurd h2 (by decide)
  rw [replaceChar_eq_self hsh]
  rw [removeSpaceNewline_eq_self (mem_collapse_pyIsSpace (by decide) (by decide))]

theorem normalizeSpaces_idem {s : List Char} (h : softHyphen ∉ s) :
    normalizeSpaces (normalizeSpaces s) = normalizeSpaces s := by
  have h1 : normalizeSpaces s = pyStrip (collapseRuns pyIsSpace s) := normalizeSpaces_eq h
  have hsh : softHyphen ∉ normalizeSpaces s := by
    rw [h1]
    intro hmem
    rcases mem_collapseRuns (mem_pyStrip hmem) with ⟨hm, _⟩ | h2
    · exact h hm
    · exact absurd h2 (by decide)
  have hok : spacedOk pyIsSpace (normalizeSpaces s) = true := by
    rw [h1]
    exact spacedOk_pyStrip (spacedOk_collapseRuns _ (by decide) _)
  rw [normalizeSpaces_eq hsh, collapseRuns_eq_self hok, h1, pyStrip_idem]

end ParserLETI

/-! ## Claim C3 -/

/-- Claim C3, counterexample: the cited transform `normalizeSpaces` is not
idempotent.  On `"a­ b"` (soft hyphen before the space) one
application yields `"a  b"` — the soft hyphen is turned into a space only
after whitespace runs were collapsed — and a second application collapses
further, yielding `"a b"`. -/
theorem claim3_counterexample :
    ParserLETI.normalizeSpaces (ParserLETI.normalizeSpaces (chars "a­ b")) ≠
        ParserLETI.normalizeSpaces (chars "a­ b") ∧
      ParserLETI.normalizeSpaces (chars "a­ b") = chars "a  b" ∧
      ParserLETI.normalizeSpaces (chars "a  b") = chars "a b" := by
  decide

/-- Claim C3 (amended): `cleanPdfSpaces` is idempotent, its output contains
none of the configured Unicode space variants, and every whitespace run it
leaves is a single ASCII space (`spacedOk`); `normalizeSpaces` is
idempotent on every string that contains no soft hyphen. -/
theorem claim3_amended :
    (∀ t : List Char, ParserLETI.cleanPdfSpaces (ParserLETI.cleanPdfSpaces t) =
        ParserLETI.cleanPdfSpaces t) ∧
    (∀ t : List Char, ∀ c ∈ ParserLETI.cleanPdfSpaces t, c ∉ ParserLETI.pdfSpaces) ∧
    (∀ t : List Char, spacedOk (fun c => c = ' ') (ParserLETI.cleanPdfSpaces t) = true) ∧
    (∀ s : List Char, softHyphen ∉ s →
        ParserLETI.normalizeSpaces (ParserLETI.normalizeSpaces s) =
          ParserLETI.normalizeSpaces s) :=
  ⟨ParserLETI.cleanPdfSpaces_idem, ParserLETI.cleanPdfSpaces_no_pdfSpace,
   ParserLETI.cleanPdfSpaces_spacedOk, fun _ h => ParserLETI.normalizeSpaces_idem h⟩

/-- Witness for the amended claim C3 at concrete inputs. -/
theorem claim3_witness :
    ParserLETI.cleanPdfSpaces (ParserLETI.cleanPdfSpaces (chars "x   y")) =
        ParserLETI.cleanPdfSpaces (chars "x   y") ∧
      'x' ∉ ParserLETI.pdfSpaces ∧
      ParserLETI.normalizeSpaces (ParserLETI.normalizeSpaces (chars " a \t b ")) =
        ParserLETI.normalizeSpaces (chars " a \t b ") :=
  ⟨claim3_amended.1 _, claim3_amended.2.1 (chars "x") 'x' (by decide),
   claim3_amended.2.2.2 _ (by decide)⟩

/-! ## Lemmas: substring search -/

theorem findIdx?_nil (pat : List Char) :
    findIdx? [] pat = if pat.isPrefixOf [] then some 0 else none := rfl

theorem findIdx?_cons (a : Char) (t pat : List Char) :
    findIdx? (a :: t) pat =
      if pat.isPrefixOf (a :: t) then some 0
      else (findIdx? t pat).map (· + 1) := rfl

theorem findIdx?_atHead {pat : List Char} :
    ∀ {hay : List Char} {i : Nat}, findIdx? hay pat = some i →
      pat.isPrefixOf (hay.drop i) = true
  | [], i, h => by
    rw [findIdx?_nil] at h
    by_cases hp : pat.isPrefixOf [] = true
    · rw [if_pos hp] at h
      cases h
      simpa using hp
    · rw [if_neg hp] at h
      cases h
  | a :: t, i, h => by
    rw [findIdx?_cons] at h
    by_cases hp : pat.isPrefixOf (a :: t) = true
    · rw [if_pos hp] at h
      cases h
      simpa using hp
    · rw [if_neg hp] at h
      rcases Option.map_eq_some'.mp h with ⟨j, hj, hij⟩
      subst hij
      rw [List.drop_succ_cons]
      exact findIdx?_atHead hj

theorem findIdx?_min {pat : List Char} :
    ∀ {hay : List Char} {i : Nat}, findIdx? hay pat = some i →
      ∀ j < i, pat.isPrefixOf (hay.drop j) = false
  | [], i, h => by
    intro j hj
    rw [List.drop_nil]
    rw [findIdx?_nil] at h
    by_cases hp : pat.isPrefixOf [] = true
    · rw [if_pos hp] at h
      cases h
      exact absurd hj (Nat.not_lt_zero j)
    · rw [if_neg hp] at h
      cases h
  | a :: t, i, h => by
    rw [findIdx?_cons] at h
    by_cases hp : pat.isPrefixOf (a :: t) = true
    · rw [if_pos hp] at h
      cases h
      intro j hj
      exact absurd hj (Nat.not_lt_zero j)
    · rw [if_neg hp] at h
      rcases Option.map_eq_some'.mp h with ⟨j', hj', hij⟩
      subst hij
      intro j hj
      cases j with
      | zero => exact bool_eq_false hp
      | succ k =>
        rw [List.drop_succ_cons]
        exact findIdx?_min hj' k (Nat.lt_of_succ_lt_succ hj)

theorem findIdx?_none_no_occ {pat : List Char} :
    ∀ {hay : List Char}, findIdx? hay pat = none →
      ∀ j, pat.isPrefixOf (hay.drop j) = false
  | [], h => by
    intro j
    rw [List.drop_nil]
    rw [findIdx?_nil] at h
    by_cases hp : pat.isPrefixOf [] = true
    · rw [if_pos hp] at h; cases h
    · exact bool_eq_false hp
  | a :: t, h => by
    rw [findIdx?_cons] at h
    by_cases hp : pat.isPrefixOf (a :: t) = true
    · rw [if_pos hp] at h; cases h
    · rw [if_neg hp] at h
      intro j
      cases j with
      | zero => exact bool_eq_false hp
      | succ k =>
        rw [List.drop_succ_cons]
        exact findIdx?_none_no_occ (Option.map_eq_none'.mp h) k

theorem findIdx?_le_length {pat : List Char} :
    ∀ {hay : List Char} {i : Nat}, findIdx? hay pat = some i → i ≤ hay.length
  | [], i, h => by
    rw [findIdx?_nil] at h
    by_cases hp : pat.isPrefixOf [] = true
    · rw [if_pos hp] at h
      cases h
      exact Nat.le_refl 0
    · rw [if_neg hp] at h
      cases h
  | a :: t, i, h => by
    rw [findIdx?_cons] at h
    by_cases hp : pat.isPrefixOf (a :: t) = true
    · rw [if_pos hp] at h
      cases h
      exact Nat.zero_le _
    · rw [if_neg hp] at h
      rcases Option.map_eq_some'.mp h with ⟨j, hj, hij⟩
      subst hij
      have := findIdx?_le_length hj
      simpa using Nat.succ_le_succ this

theorem pyFind_of_findIdx {hay pat : List Char} {i : Nat}
    (h : findIdx? hay pat = some i) : pyFind hay pat = (i : Int) := by
  rw [pyFind, h]

theorem pyFind_neg_iff {hay pat : List Char} :
    pyFind hay pat = -1 ↔ findIdx? hay pat = none := by
  rw [pyFind]
  cases h : findIdx? hay pat with
  | none => simp
  | some i => simp

theorem pyFindFrom_neg_iff {hay pat : List Char} {s : Nat} :
    pyFindFrom hay pat s = -1 ↔ findIdx? (hay.drop s) pat = none := by
  rw [pyFindFrom]
  cases h : findIdx? (hay.drop s) pat with
  | none => simp
  | some i =>
    simp
    omega

theorem pyFindFrom_spec {hay pat : List Char} {s j : Nat}
    (h : pyFindFrom hay pat s = (j : Int)) :
    s ≤ j ∧ pat.isPrefixOf (hay.drop j) = true ∧
      ∀ k, s ≤ k → k < j → pat.isPrefixOf (hay.drop k) = false := by
  rw [pyFindFrom] at h
  cases hf : findIdx? (hay.drop s) pat with
  | none =>
    rw [hf] at h
    simp at h
  | some i =>
    rw [hf] at h
    simp at h
    have hj : j = s + i := by omega
    subst hj
    refine ⟨Nat.le_add_right s i, ?_, ?_⟩
    · have := findIdx?_atHead hf
      rwa [List.drop_drop] at this
    · intro k hsk hk
      have := findIdx?_min hf (k - s) (by omega)
      rwa [List.drop_drop, Nat.add_sub_cancel' hsk] at this

theorem prefix_length_le {pat hay : List Char} {i : Nat}
    (h : findIdx? hay pat = some i) : i + pat.length ≤ hay.length := by
  have hp := List.isPrefixOf_iff_prefix.mp (findIdx?_atHead h)
  have h1 := hp.length_le
  rw [List.length_drop] at h1
  have h2 : i ≤ hay.length := findIdx?_le_length h
  omega

/-! ## Lemmas: slicing -/

theorem pySliceIdx_coe {n a : Nat} (h : a ≤ n) : pySliceIdx n (a : Int) = a := by
  unfold pySliceIdx
  rw [if_neg (by omega)]
  omega

theorem pySliceIdx_neg_one {n : Nat} (h : 1 ≤ n) : pySliceIdx n (-1) = n - 1 := by
  unfold pySliceIdx
  rw [if_pos (by omega)]
  omega

theorem drop_dropLast (l : List Char) (k : Nat) :
    l.dropLast.drop k = (l.drop k).dropLast := by
  rw [List.dropLast_eq_take, List.drop_take, List.dropLast_eq_take, List.length_drop]
  congr 1
  omega

/-! ## Lemmas: section location (claims C4 and C5) -/

namespace ParserLETI

theorem previousBlock_end_of_text {text : List Char} {i : Nat}
    (h : findIdx? text textForPreviousSubject = some i)
    (habs : pyFindFrom text endTextForPreviousSubject
      (i + textForPreviousSubject.length) = -1) :
    previousBlock text = some (text.drop (i + textForPreviousSubject.length)) := by
  have hlen : i + textForPreviousSubject.length ≤ text.length := prefix_length_le h
  have hcoe : ((i : Int) + (textForPreviousSubject.length : Int)).toNat =
      i + textForPreviousSubject.length := by omega
  simp only [previousBlock, pyFind_of_findIdx h, hcoe]
  rw [if_pos (by omega : ¬((i : Int) = -1))]
  rw [habs, if_pos rfl]
  unfold pySlice
  rw [pySliceIdx_coe (Nat.le_refl _), List.take_length]
  have : ((i : Int) + (textForPreviousSubject.length : Int)) =
      ((i + textForPreviousSubject.length : Nat) : Int) := by omega
  rw [this, pySliceIdx_coe hlen]

theorem previousBlock_at_terminator {text : List Char} {i j : Nat}
    (h : findIdx? text textForPreviousSubject = some i)
    (hj : pyFindFrom text endTextForPreviousSubject
      (i + textForPreviousSubject.length) = (j : Int)) :
    previousBlock text = some ((text.take j).drop (i + textForPreviousSubject.length)) := by
  have hlen : i + textForPreviousSubject.length ≤ text.length := prefix_length_le h
  obtain ⟨hsj, hpre, _⟩ := pyFindFrom_spec hj
  have hjle : j ≤ text.length := by
    have hp := List.isPrefixOf_iff_prefix.mp hpre
    have h1 := hp.length_le
    rw [List.length_drop] at h1
    have h2 : 0 < endTextForPreviousSubject.length := by decide
    by_contra hc
    push_neg at hc
    omega
  have hcoe : ((i : Int) + (textForPreviousSubject.length : Int)).toNat =
      i + textForPreviousSubject.length := by omega
  simp only [previousBlock, pyFind_of_findIdx h, hcoe]
  rw [if_pos (by omega : ¬((i : Int) = -1))]
  rw [hj, if_neg (by omega : ¬((j : Int) = -1))]
  unfold pySlice
  rw [pySliceIdx_coe hjle]
  have : ((i : Int) + (textForPreviousSubject.length : Int)) =
      ((i + textForPreviousSubject.length : Nat) : Int) := by omega
  rw [this, pySliceIdx_coe hlen]

theorem topicsBlockRaw_drops_last {text : List Char} {i : Nat}
    (h : findIdx? text textForSubjectTopics = some i)
    (habs : pyFind text endText = -1) :
    topicsBlockRaw text =
      some (pyStrip ((text.drop (i + textForSubjectTopics.length)).dropLast)) := by
  have hlen : i + textForSubjectTopics.length ≤ text.length := prefix_length_le h
  have hn : 1 ≤ text.length := by
    have : 0 < textForSubjectTopics.length := by decide
    omega
  simp only [topicsBlockRaw, isSubstr, h, Option.isSome_some, if_pos,
    pyFind_of_findIdx h, habs]
  unfold pySlice
  rw [pySliceIdx_neg_one hn]
  have : ((i : Int) + (textForSubjectTopics.length : Int)) =
      ((i + textForSubjectTopics.length : Nat) : Int) := by omega
  rw [this, pySliceIdx_coe hlen]
  rw [← List.dropLast_eq_take, drop_dropLast]

end ParserLETI

namespace ParserMPU

theorem endPosFrom_eq_none {text : List Char} {cpos : Nat} :
    ∀ {ms : List (List Char)}, (∀ m ∈ ms, pyFindFrom text m cpos = -1) →
      endPosFrom text cpos ms = none
  | [], _ => rfl
  | m :: ms, h => by
    rw [endPosFrom, if_pos (h m (List.mem_cons_self m ms))]
    exact endPosFrom_eq_none fun m' hm' => h m' (List.mem_cons_of_mem _ hm')

theorem endPos_default {text : List Char} {cpos : Nat}
    (h : ∀ m ∈ contentEndPatterns, pyFindFrom text m cpos = -1) :
    endPos text cpos = cpos + 10000 := by
  rw [endPos, endPosFrom_eq_none h]

theorem endPosFrom_priority {text : List Char} {cpos : Nat} (m : List Char)
    (ms : List (List Char)) (h : pyFindFrom text m cpos ≠ -1) :
    endPosFrom text cpos (m :: ms) = some (pyFindFrom text m cpos).toNat := by
  rw [endPosFrom, if_neg h]

end ParserMPU

theorem pyFind_cases (hay pat : List Char) :
    pyFind hay pat = -1 ∨ ∃ i : Nat, pyFind hay pat = (i : Int) := by
  rw [pyFind]
  cases findIdx? hay pat with
  | none => exact Or.inl rfl
  | some i => exact Or.inr ⟨i, rfl⟩

theorem min?_perm {l l' : List Nat} (h : l.Perm l') : l.min? = l'.min? := by
  cases hm : l.min? with
  | none =>
    rw [List.min?_eq_none_iff] at hm
    subst hm
    rw [Eq.comm, List.min?_eq_none_iff]
    exact List.perm_nil.mp h.symm
  | some m =>
    obtain ⟨hmem, hlb⟩ := List.min?_eq_some_iff'.mp hm
    exact (List.min?_eq_some_iff'.mpr ⟨h.mem_iff.mp hmem,
      fun b hb => hlb b (h.mem_iff.mpr hb)⟩).symm

namespace ParserMTUCI

theorem cut_by_words_min {text : List Char} {ws : List (List Char)} {m : Nat}
    (h : (cutPositions text ws).min? = some m) :
    cut_by_words text ws = pyStrip (text.take m) := by
  rw [cut_by_words, h]

theorem cut_by_words_spec {text : List Char} {ws : List (List Char)} {m : Nat}
    (h : (cutPositions text ws).min? = some m) :
    cut_by_words text ws = pyStrip (text.take m) ∧
      (∃ w ∈ ws, pyFind text w = (m : Int)) ∧
      ∀ w ∈ ws, pyFind text w = -1 ∨ (m : Int) ≤ pyFind text w := by
  obtain ⟨hmem, hlb⟩ := List.min?_eq_some_iff'.mp h
  refine ⟨cut_by_words_min h, ?_, ?_⟩
  · rcases List.mem_filterMap.mp hmem with ⟨w, hw, hfw⟩
    by_cases hneg : pyFind text w = -1
    · rw [if_pos hneg] at hfw
      cases hfw
    · rw [if_neg hneg] at hfw
      injection hfw with hfw
      refine ⟨w, hw, ?_⟩
      rcases pyFind_cases text w with hc | ⟨i', hi'⟩
      · exact absurd hc hneg
      · rw [hi'] at hfw ⊢
        have : i' = m := by omega
        rw [this]
  · intro w hw
    rcases pyFind_cases text w with hc | ⟨i', hi'⟩
    · exact Or.inl hc
    · right
      rw [hi']
      have hmem' : i' ∈ cutPositions text ws := by
        refine List.mem_filterMap.mpr ⟨w, hw, ?_⟩
        rw [if_neg (by rw [hi']; omega)]
        rw [hi']
        simp
      have := hlb i' hmem'
      omega

theorem cut_by_words_perm (text : List Char) {ws ws' : List (List Char)}
    (h : ws.Perm ws') : cut_by_words text ws = cut_by_words text ws' := by
  have hp : (cutPositions text ws).min? = (cutPositions text ws').min? :=
    min?_perm (List.Perm.filterMap _ h)
  rw [cut_by_words, cut_by_words, hp]

theorem cut_by_words_no_match {text : List Char} {ws : List (List Char)}
    (h : ∀ w ∈ ws, pyFind text w = -1) : cut_by_words text ws = text := by
  have hnil : cutPositions text ws = [] := by
    rw [cutPositions]
    refine List.filterMap_eq_nil_iff.mpr fun w hw => ?_
    rw [if_pos (h w hw)]
  rw [cut_by_words, hnil]
  rfl

end ParserMTUCI

/-! ## Claim C4 -/

/-- Claim C4, counterexample: in the LETI topics path the terminator is
searched with `find` and the result is used as a slice bound without a
`-1` guard, so when no terminator occurs the returned section is the
remaining text *minus its final character*, not the entire remaining
text.  On `"4.1.2 СодержаниеABC"` the marker ends at index 16, the
remainder is `"ABC"`, but the section is `"AB"`. -/
theorem claim4_counterexample :
    findIdx? (chars "4.1.2 СодержаниеABC") ParserLETI.textForSubjectTopics = some 0 ∧
    pyFind (chars "4.1.2 СодержаниеABC") ParserLETI.endText = -1 ∧
    ParserLETI.topicsBlockRaw (chars "4.1.2 СодержаниеABC") = some (chars "AB") ∧
    (chars "4.1.2 СодержаниеABC").drop 16 = chars "ABC" ∧
    chars "AB" ≠ chars "ABC" := by
  decide

/-- Claim C4 (amended): in the LETI prerequisites path, when no terminator
occurs at or after the winning marker the section is the entire remaining
text, and when one occurs the section ends at the position of its first
occurrence at or after the marker.  In the LETI topics path a missing
terminator instead yields the remainder with its last character dropped.
In the MPU topics path a missing terminator caps the section at
`contentPos + 10000` instead of the end of the document. -/
theorem claim4_amended :
    (∀ text : List Char, ∀ i : Nat,
      findIdx? text ParserLETI.textForPreviousSubject = some i →
      (pyFindFrom text ParserLETI.endTextForPreviousSubject
          (i + ParserLETI.textForPreviousSubject.length) = -1 →
        ParserLETI.previousBlock text =
          some (text.drop (i + ParserLETI.textForPreviousSubject.length))) ∧
      (∀ j : Nat,
        pyFindFrom text ParserLETI.endTextForPreviousSubject
            (i + ParserLETI.textForPreviousSubject.length) = (j : Int) →
        ParserLETI.previousBlock text =
          some ((text.take j).drop (i + ParserLETI.textForPreviousSubject.length)) ∧
        ParserLETI.endTextForPreviousSubject.isPrefixOf (text.drop j) = true ∧
        ∀ k, i + ParserLETI.textForPreviousSubject.length ≤ k → k < j →
          ParserLETI.endTextForPreviousSubject.isPrefixOf (text.drop k) = false)) ∧
    (∀ text : List Char, ∀ i : Nat,
      findIdx? text ParserLETI.textForSubjectTopics = some i →
      pyFind text ParserLETI.endText = -1 →
      ParserLETI.topicsBlockRaw text =
        some (pyStrip ((text.drop (i + ParserLETI.textForSubjectTopics.length)).dropLast))) ∧
    (∀ text : List Char, ∀ cpos : Nat,
      (∀ m ∈ ParserMPU.contentEndPatterns, pyFindFrom text m cpos = -1) →
      ParserMPU.endPos text cpos = cpos + 10000) := by
  refine ⟨fun text i h => ⟨fun habs => ParserLETI.previousBlock_end_of_text h habs,
    fun j hj => ⟨ParserLETI.previousBlock_at_terminator h hj,
      (pyFindFrom_spec hj).2.1, (pyFindFrom_spec hj).2.2⟩⟩,
    fun text i h habs => ParserLETI.topicsBlockRaw_drops_last h habs,
    fun text cpos h => ParserMPU.endPos_default h⟩

/-- Witness for the amended claim C4 at concrete inputs. -/
theorem claim4_witness :
    ParserLETI.previousBlock
        (chars "Дисциплина изучается на основе ранее освоенных дисциплин учебного плана:XYZ") =
      some (chars "XYZ") ∧
    ParserLETI.previousBlock
        (chars "Дисциплина изучается на основе ранее освоенных дисциплин учебного плана: «А» и обеспечивает") =
      some (chars " «А» ") ∧
    ParserLETI.topicsBlockRaw (chars "4.1.2 Содержание ТЕКСТ") =
      some (chars "ТЕКС") ∧
    ParserMPU.endPos (chars "здесь нет маркеров") 0 = 0 + 10000 :=
  ⟨((claim4_amended.1 _ 0 (by decide)).1 (by decide)).trans (by decide),
   (((claim4_amended.1 _ 0 (by decide)).2 77 (by decide)).1).trans (by decide),
   (claim4_amended.2.1 _ 0 (by decide) (by decide)).trans (by decide),
   claim4_amended.2.2 (chars "здесь нет маркеров") 0 (by decide)⟩

/-! ## Claim C5 -/

/-- Claim C5, counterexample: MPU's `_extract_topics` scans the configured
end markers in list order and stops at the first one that occurs, not at
the candidate with minimal text position.  On
`"X 4.5 Y 4 Учебно-методическое"` the configured candidate `"4."` occurs
at position 2, yet the section is cut at position 8, where the
first-listed candidate occurs. -/
theorem claim5_counterexample :
    ParserMPU.endPos (chars "X 4.5 Y 4 Учебно-методическое") 0 = 8 ∧
    chars "4." ∈ ParserMPU.contentEndPatterns ∧
    pyFindFrom (chars "X 4.5 Y 4 Учебно-методическое") (chars "4.") 0 = 2 ∧
    (2 : Nat) < 8 := by
  decide

/-- Claim C5 (amended): MTUCI's `__cut_by_words` does cut at the
minimal-position candidate — when some candidate occurs, the cut position
is an occurrence position of a candidate, is a lower bound of all
candidates' occurrence positions, and the result is invariant under
permutation of the candidate list; when no candidate occurs the text is
returned unchanged.  MPU's `_extract_topics`, by contrast, uses the first
candidate in configured order that occurs. -/
theorem claim5_amended :
    (∀ text : List Char, ∀ ws : List (List Char), ∀ m : Nat,
      (ParserMTUCI.cutPositions text ws).min? = some m →
      ParserMTUCI.cut_by_words text ws = pyStrip (text.take m) ∧
        (∃ w ∈ ws, pyFind text w = (m : Int)) ∧
        ∀ w ∈ ws, pyFind text w = -1 ∨ (m : Int) ≤ pyFind text w) ∧
    (∀ text : List Char, ∀ ws ws' : List (List Char), ws.Perm ws' →
      ParserMTUCI.cut_by_words text ws = ParserMTUCI.cut_by_words text ws') ∧
    (∀ text : List Char, ∀ ws : List (List Char),
      (∀ w ∈ ws, pyFind text w = -1) → ParserMTUCI.cut_by_words text ws = text) ∧
    (∀ text : List Char, ∀ cpos : Nat, ∀ m : List Char, ∀ ms : List (List Char),
      pyFindFrom text m cpos ≠ -1 →
      ParserMPU.endPosFrom text cpos (m :: ms) =
        some (pyFindFrom text m cpos).toNat) :=
  ⟨fun _ _ _ h => ParserMTUCI.cut_by_words_spec h,
   fun text _ _ h => ParserMTUCI.cut_by_words_perm text h,
   fun _ _ h => ParserMTUCI.cut_by_words_no_match h,
   fun _ _ m ms h => ParserMPU.endPosFrom_priority m ms h⟩

/-- Witness for the amended claim C5 at concrete inputs. -/
theorem claim5_witness :
    ParserMTUCI.cut_by_words (chars "аб Лекция х Практическая работа")
        ParserMTUCI.endTextForTopics = chars "аб" ∧
    ParserMTUCI.cut_by_words (chars "аб Лекция х Практическая работа")
        ParserMTUCI.endTextForTopics =
      ParserMTUCI.cut_by_words (chars "аб Лекция х Практическая работа")
        ParserMTUCI.endTextForTopics.reverse ∧
    ParserMTUCI.cut_by_words (chars "пусто") ParserMTUCI.endTextForTopics =
      chars "пусто" ∧
    ParserMPU.endPosFrom (chars "X 4.5 Y 4 Учебно-методическое") 0
        ParserMPU.contentEndPatterns = some 8 :=
  ⟨((claim5_amended.1 _ _ 3 (by decide)).1).trans (by decide),
   claim5_amended.2.1 _ _ _ (List.reverse_perm _).symm,
   claim5_amended.2.2.1 _ _ (by decide),
   claim5_amended.2.2.2 _ 0 (chars "4 Учебно-методическое")
     [chars "4. Учебно-методическое", chars "4."] (by decide)⟩

/-! ## Lemmas: GUAP list cleaning (claims C1 and C7) -/

namespace ParserGUAP

theorem remove_intersection_spec (a b : List (List Char)) (x : List Char) :
    (x ∈ a → x ∈ b →
      x ∉ (remove_intersection a b).1 ∧ x ∉ (remove_intersection a b).2) ∧
    (x ∈ a → x ∉ b → x ∈ (remove_intersection a b).1) ∧
    (x ∈ b → x ∉ a → x ∈ (remove_intersection a b).2) ∧
    ¬(x ∈ (remove_intersection a b).1 ∧ x ∈ (remove_intersection a b).2) := by
  unfold remove_intersection
  by_cases he : (a.isEmpty || b.isEmpty) = true
  · rw [if_pos he]
    simp only [List.isEmpty_iff, Bool.or_eq_true] at he
    have hno : ¬(x ∈ a ∧ x ∈ b) := by
      rcases he with he | he <;> subst he
      · exact fun h => List.not_mem_nil x h.1
      · exact fun h => List.not_mem_nil x h.2
    exact ⟨fun h1 h2 => absurd ⟨h1, h2⟩ hno, fun h1 _ => h1, fun h1 _ => h1, hno⟩
  · rw [if_neg he]
    refine ⟨fun h1 h2 => ?_, fun h1 h2 => ?_, fun h1 h2 => ?_, fun ⟨h1, h2⟩ => ?_⟩
    · constructor <;> · intro hm
                        rcases List.mem_filter.mp hm with ⟨_, hf⟩
                        simp [h1, h2] at hf
    · exact List.mem_filter.mpr ⟨h1, by simp [h2]⟩
    · exact List.mem_filter.mpr ⟨h1, by simp [h2]⟩
    · rcases List.mem_filter.mp h1 with ⟨ha, hf⟩
      rcases List.mem_filter.mp h2 with ⟨hb, _⟩
      simp [ha, hb] at hf

theorem cleanLoop_cons (item : List Char) (rest seen acc : List (List Char)) :
    cleanLoop (item :: rest) seen acc =
      match acceptItem item with
      | none => cleanLoop rest seen acc
      | some c =>
        if dedupKey c ∈ seen then cleanLoop rest seen acc
        else cleanLoop rest (dedupKey c :: seen) (c :: acc) := rfl

theorem cleanLoop_acc_mem {y : List Char} :
    ∀ {items seen acc : List (List Char)}, y ∈ acc → y ∈ cleanLoop items seen acc
  | [], _, acc, h => List.mem_reverse.mpr h
  | item :: rest, seen, acc, h => by
    simp only [cleanLoop_cons]
    cases hA : acceptItem item with
    | none => exact cleanLoop_acc_mem h
    | some c =>
      by_cases hk : dedupKey c ∈ seen
      · simp only [if_pos hk]
        exact cleanLoop_acc_mem h
      · simp only [if_neg hk]
        exact cleanLoop_acc_mem (List.mem_cons_of_mem _ h)

theorem cleanLoop_key_mem {k : List Char} :
    ∀ {items seen acc : List (List Char)},
      (∃ it ∈ items, ∃ c, acceptItem it = some c ∧ dedupKey c = k) →
      (k ∈ seen → ∃ y ∈ acc, dedupKey y = k) →
      ∃ y ∈ cleanLoop items seen acc, dedupKey y = k
  | [], _, _, hex, _ => by simp at hex
  | item :: rest, seen, acc, hex, hlink => by
    simp only [cleanLoop_cons]
    cases hA : acceptItem item with
    | none =>
      refine cleanLoop_key_mem ?_ hlink
      rcases hex with ⟨it, hit, c, hc, hkc⟩
      rcases List.mem_cons.mp hit with rfl | hit'
      · rw [hA] at hc; cases hc
      · exact ⟨it, hit', c, hc, hkc⟩
    | some c =>
      by_cases hk : dedupKey c ∈ seen
      · simp only [if_pos hk]
        rcases hex with ⟨it, hit, c', hc', hkc'⟩
        rcases List.mem_cons.mp hit with rfl | hit'
        · rw [hA] at hc'
          injection hc' with hc'
          subst hc'
          rcases hlink (hkc' ▸ hk) with ⟨y, hy, hky⟩
          exact ⟨y, cleanLoop_acc_mem hy, hky⟩
        · exact cleanLoop_key_mem ⟨it, hit', c', hc', hkc'⟩ hlink
      · simp only [if_neg hk]
        rcases hex with ⟨it, hit, c', hc', hkc'⟩
        rcases List.mem_cons.mp hit with rfl | hit'
        · rw [hA] at hc'
          injection hc' with hc'
          subst hc'
          exact ⟨c, cleanLoop_acc_mem (List.mem_cons_self _ _), hkc'⟩
        · refine cleanLoop_key_mem ⟨it, hit', c', hc', hkc'⟩ ?_
          intro hks
          rcases List.mem_cons.mp hks with hkc | hkseen
          · exact ⟨c, List.mem_cons_self c acc, hkc.symm⟩
          · rcases hlink hkseen with ⟨y, hy, hky⟩
            exact ⟨y, List.mem_cons_of_mem _ hy, hky⟩

theorem cleanLoop_pairwise :
    ∀ {items seen acc : List (List Char)},
      (∀ y ∈ acc, dedupKey y ∈ seen) →
      List.Pairwise (fun a b => dedupKey a ≠ dedupKey b) acc →
      List.Pairwise (fun a b => dedupKey a ≠ dedupKey b) (cleanLoop items seen acc)
  | [], _, acc, _, hp => by
    simp only [cleanLoop]
    exact List.pairwise_reverse.mpr (hp.imp fun h => h.symm)
  | item :: rest, seen, acc, hs, hp => by
    simp only [cleanLoop_cons]
    cases hA : acceptItem item with
    | none => exact cleanLoop_pairwise hs hp
    | some c =>
      by_cases hk : dedupKey c ∈ seen
      · simp only [if_pos hk]
        exact cleanLoop_pairwise hs hp
      · simp only [if_neg hk]
        refine cleanLoop_pairwise ?_ ?_
        · intro y hy
          rcases List.mem_cons.mp hy with rfl | hy'
          · exact List.mem_cons_self _ _
          · exact List.mem_cons_of_mem _ (hs y hy')
        · refine List.pairwise_cons.mpr ⟨?_, hp⟩
          intro y hy he
          exact hk (he ▸ hs y hy)

theorem cleanLoop_first {k c : List Char} :
    ∀ {items seen acc : List (List Char)},
      firstWithKey items k = some c → k ∉ seen →
      c ∈ cleanLoop items seen acc
  | [], _, _, hf, _ => by simp [firstWithKey] at hf
  | item :: rest, seen, acc, hf, hks => by
    rw [firstWithKey, List.findSome?_cons] at hf
    simp only [cleanLoop_cons]
    cases hA : acceptItem item with
    | none =>
      rw [hA] at hf
      exact cleanLoop_first hf hks
    | some c' =>
      rw [hA] at hf
      dsimp only at hf ⊢
      by_cases hkc : dedupKey c' = k
      · rw [if_pos hkc] at hf
        dsimp only at hf
        injection hf with hf
        subst hf
        rw [if_neg (by rw [hkc]; exact hks)]
        exact cleanLoop_acc_mem (List.mem_cons_self _ _)
      · rw [if_neg hkc] at hf
        dsimp only at hf
        by_cases hk : dedupKey c' ∈ seen
        · rw [if_pos hk]
          exact cleanLoop_first hf hks
        · rw [if_neg hk]
          refine cleanLoop_first hf ?_
          intro hmem
          rcases List.mem_cons.mp hmem with he | hseen
          · exact hkc he.symm
          · exact hks hseen

theorem countP_le_one_of_pairwise {k : List Char} :
    ∀ {l : List (List Char)},
      List.Pairwise (fun a b => dedupKey a ≠ dedupKey b) l →
      l.countP (fun y => decide (dedupKey y = k)) ≤ 1
  | [], _ => by simp
  | y :: l, h => by
    rcases List.pairwise_cons.mp h with ⟨hy, hl⟩
    rw [List.countP_cons]
    by_cases hk : dedupKey y = k
    · have hz : l.countP (fun y => decide (dedupKey y = k)) = 0 := by
        rw [List.countP_eq_zero]
        intro a ha
        simp only [decide_eq_true_eq]
        intro he
        exact hy a ha (hk.trans he.symm)
      simp [hk, hz]
    · simpa [hk] using countP_le_one_of_pairwise hl

theorem clean_discipline_list_perm (items : List (List Char)) :
    (clean_discipline_list items).Perm (cleanLoop items [] []) :=
  List.perm_insertionSort _ _

theorem clean_pairwise (items : List (List Char)) :
    List.Pairwise (fun a b => dedupKey a ≠ dedupKey b)
      (clean_discipline_list items) := by
  refine ((clean_discipline_list_perm items).pairwise_iff ?_).mpr
    (cleanLoop_pairwise (by simp) List.Pairwise.nil)
  intro a b h
  exact h.symm

theorem clean_count_one {items : List (List Char)} {r c : List Char}
    (hr : r ∈ items) (hc : acceptItem r = some c) :
    (clean_discipline_list items).countP
      (fun y => decide (dedupKey y = dedupKey c)) = 1 := by
  have hcount := (clean_discipline_list_perm items).countP_eq
    (fun y => decide (dedupKey y = dedupKey c))
  have hle : (cleanLoop items [] []).countP
      (fun y => decide (dedupKey y = dedupKey c)) ≤ 1 :=
    countP_le_one_of_pairwise (cleanLoop_pairwise (by simp) List.Pairwise.nil)
  have hmem : ∃ y ∈ cleanLoop items [] [], dedupKey y = dedupKey c :=
    cleanLoop_key_mem ⟨r, hr, c, hc, rfl⟩ (by simp)
  have hpos : 0 < (cleanLoop items [] []).countP
      (fun y => decide (dedupKey y = dedupKey c)) := by
    rcases hmem with ⟨y, hy, hky⟩
    exact List.countP_pos_iff.mpr ⟨y, hy, by simpa using hky⟩
  omega

theorem clean_first {items : List (List Char)} {k c : List Char}
    (h : firstWithKey items k = some c) :
    c ∈ clean_discipline_list items :=
  (clean_discipline_list_perm items).mem_iff.mpr
    (cleanLoop_first h (by simp))

end ParserGUAP

/-! ## Claim C1 -/

/-- Claim C1, counterexample: a name present in both raw lists can survive
in a final list.  `"Data Bases"` occurs in both raw extractions, but
deduplication keeps the earlier spelling `"Data  Bases"` (double space,
same key) in the prerequisite list; the intersection is then computed on
exact strings, finds nothing, and `"Data Bases"` remains in
`nextDisciplines`. -/
theorem claim1_counterexample :
    chars "Data Bases" ∈ [chars "Data  Bases", chars "Data Bases"] ∧
    chars "Data Bases" ∈ [chars "Data Bases"] ∧
    ParserGUAP.finalLists [chars "Data  Bases", chars "Data Bases"]
        [chars "Data Bases"] =
      ([chars "Data  Bases"], [chars "Data Bases"]) ∧
    chars "Data Bases" ∈
      (ParserGUAP.finalLists [chars "Data  Bases", chars "Data Bases"]
        [chars "Data Bases"]).2 := by
  decide

/-- Claim C1 (amended): intersection removal works on the *cleaned* lists
and on exact strings.  A name present in both cleaned lists appears in
neither final list; a name present in exactly one cleaned list is kept
there; and the final `previousDisciplines` and `nextDisciplines` never
share a string.  A raw name occurring in both raw lists can still survive
in one final list when deduplication keeps a different spelling of its
key in the other list. -/
theorem claim1_amended :
    ∀ p n : List (List Char), ∀ x : List Char,
      (x ∈ ParserGUAP.clean_discipline_list p →
        x ∈ ParserGUAP.clean_discipline_list n →
        x ∉ (ParserGUAP.finalLists p n).1 ∧ x ∉ (ParserGUAP.finalLists p n).2) ∧
      (x ∈ ParserGUAP.clean_discipline_list p →
        x ∉ ParserGUAP.clean_discipline_list n →
        x ∈ (ParserGUAP.finalLists p n).1) ∧
      (x ∈ ParserGUAP.clean_discipline_list n →
        x ∉ ParserGUAP.clean_discipline_list p →
        x ∈ (ParserGUAP.finalLists p n).2) ∧
      ¬(x ∈ (ParserGUAP.finalLists p n).1 ∧ x ∈ (ParserGUAP.finalLists p n).2) :=
  fun p n x => ParserGUAP.remove_intersection_spec
    (ParserGUAP.clean_discipline_list p) (ParserGUAP.clean_discipline_list n) x

/-- Witness for the amended claim C1 at concrete inputs. -/
theorem claim1_witness :
    chars "Алгоритмы" ∉
      (ParserGUAP.finalLists [chars "Математика", chars "Алгоритмы"]
        [chars "Алгоритмы"]).1 ∧
    chars "Алгоритмы" ∉
      (ParserGUAP.finalLists [chars "Математика", chars "Алгоритмы"]
        [chars "Алгоритмы"]).2 ∧
    chars "Математика" ∈
      (ParserGUAP.finalLists [chars "Математика", chars "Алгоритмы"]
        [chars "Алгоритмы"]).1 :=
  ⟨((claim1_amended [chars "Математика", chars "Алгоритмы"] [chars "Алгоритмы"]
      (chars "Алгоритмы")).1 (by decide) (by decide)).1,
   ((claim1_amended [chars "Математика", chars "Алгоритмы"] [chars "Алгоритмы"]
      (chars "Алгоритмы")).1 (by decide) (by decide)).2,
   (claim1_amended [chars "Математика", chars "Алгоритмы"] [chars "Алгоритмы"]
      (chars "Математика")).2.1 (by decide) (by decide)⟩

/-! ## Claim C7 -/

/-- Claim C7, counterexample: two raw candidates whose lowercased,
whitespace-removed forms are equal can yield *zero* output entries rather
than exactly one: `"ab"` and `"ab "` share the dedup key `"ab"` but both
are rejected by the minimum-length guard, so the output is empty. -/
theorem claim7_counterexample :
    ParserGUAP.dedupKey (chars "ab") = ParserGUAP.dedupKey (chars "ab ") ∧
    chars "ab" ≠ chars "ab " ∧
    ParserGUAP.clean_discipline_list [chars "ab", chars "ab "] = [] := by
  decide

/-- Claim C7 (amended): the dedup key is computed on the *cleaned* form of
each candidate, and only validated candidates reach deduplication.  The
output never contains two entries with the same key; every candidate that
passes Clean+Validate contributes exactly one output entry with its key;
and the entry kept for a key is the first accepted occurrence of that
key. -/
theorem claim7_amended :
    (∀ items : List (List Char),
      List.Pairwise (fun a b => ParserGUAP.dedupKey a ≠ ParserGUAP.dedupKey b)
        (ParserGUAP.clean_discipline_list items)) ∧
    (∀ items : List (List Char), ∀ r c : List Char,
      r ∈ items → ParserGUAP.acceptItem r = some c →
      (ParserGUAP.clean_discipline_list items).countP
        (fun y => decide (ParserGUAP.dedupKey y = ParserGUAP.dedupKey c)) = 1) ∧
    (∀ items : List (List Char), ∀ k c : List Char,
      ParserGUAP.firstWithKey items k = some c →
      c ∈ ParserGUAP.clean_discipline_list items) :=
  ⟨ParserGUAP.clean_pairwise,
   fun _ _ _ hr hc => ParserGUAP.clean_count_one hr hc,
   fun _ _ _ h => ParserGUAP.clean_first h⟩

/-- Witness for the amended claim C7 at concrete inputs: `"Data Bases"`
and `"databases"` share one dedup key and yield exactly one entry. -/
theorem claim7_witness :
    (ParserGUAP.clean_discipline_list [chars "Data Bases", chars "databases"]).countP
      (fun y => decide (ParserGUAP.dedupKey y = ParserGUAP.dedupKey (chars "Data Bases"))) = 1 ∧
    chars "Data Bases" ∈
      ParserGUAP.clean_discipline_list [chars "Data Bases", chars "databases"] :=
  ⟨claim7_amended.2.1 [chars "Data Bases", chars "databases"]
      (chars "Data Bases") (chars "Data Bases") (by decide) (by decide),
   claim7_amended.2.2 [chars "Data Bases", chars "databases"]
      (ParserGUAP.dedupKey (chars "Data Bases")) (chars "Data Bases") (by decide)⟩

/-! ## Claim C9 -/

/-- Claim C9: on every object exactly as constructed by `__init__`, both
`getDirection` and `getAllDirections` raise `AttributeError`: they read
the name-mangled attribute `_ParserLETI__directionsOfStudy`, but the
constructor only ever assigns the public `directionsOfStudy`. -/
theorem claim9_theorem :
    ∀ u : PyVal, ∀ d : List Char,
      ParserLETI.getDirection (ParserLETI.init u) d =
        Except.error PyAttrErr.attributeError ∧
      ParserLETI.getAllDirections (ParserLETI.init u) =
        Except.error PyAttrErr.attributeError :=
  fun _ _ => ⟨rfl, rfl⟩

/-! ## Claim C10 -/

theorem findIdx?_append_singleton_isSome {α : Type} (p : α → Bool)
    (l : List α) (x : α) (hx : p x = true) :
    (List.findIdx? p (l ++ [x])).isSome = true := by
  induction l with
  | nil => simp [List.findIdx?_cons, hx]
  | cons a t ih =>
    rw [List.cons_append, List.findIdx?_cons]
    by_cases ha : p a = true
    · simp [ha]
    · simp only [ha, if_neg, Bool.false_eq_true, ite_false]
      simpa using ih

/-- Claim C10: the credential key `login + ":" + password` is not
injective over pairs — `("a:b", "c")` and `("a", "b:c")` are distinct
pairs with the same combined string, hence the same stored hash for
every hash function (in particular SHA-256); `findUser` called with one
pair finds the row added for the other pair. -/
theorem claim10_theorem :
    DataBaseController.combined (chars "a:b") (chars "c") =
      DataBaseController.combined (chars "a") (chars "b:c") ∧
    (chars "a:b", chars "c") ≠ (chars "a", chars "b:c") ∧
    (∀ h : List Char → List Char,
      DataBaseController.getHashByLoginPwd h (chars "a:b") (chars "c") =
        DataBaseController.getHashByLoginPwd h (chars "a") (chars "b:c")) ∧
    (∀ h : List Char → List Char,
      DataBaseController.findUser h
        (DataBaseController.addUser h [] (chars "a:b") (chars "c"))
        (chars "a") (chars "b:c") = some 0) ∧
    (∀ h : List Char → List Char, ∀ db : List (List Char),
      (DataBaseController.findUser h
        (DataBaseController.addUser h db (chars "a:b") (chars "c"))
        (chars "a") (chars "b:c")).isSome = true) := by
  have hcomb : DataBaseController.combined (chars "a:b") (chars "c") =
      DataBaseController.combined (chars "a") (chars "b:c") := by decide
  have hhash : ∀ h : List Char → List Char,
      DataBaseController.getHashByLoginPwd h (chars "a:b") (chars "c") =
        DataBaseController.getHashByLoginPwd h (chars "a") (chars "b:c") :=
    fun h => congrArg h hcomb
  refine ⟨hcomb, by decide, hhash, fun h => ?_, fun h db => ?_⟩
  · show List.findIdx? _ ([] ++ [_]) = some 0
    rw [List.nil_append, List.findIdx?_cons]
    rw [if_pos (by rw [hhash h]; exact beq_self_eq_true _)]
  · exact findIdx?_append_singleton_isSome _ db _
      (by rw [hhash h]; exact beq_self_eq_true _)

/-! ## Claim C6: SpbPU heading/body finalization -/

/-- With no accumulated body (`textUnits`) and no accumulated units
(`listUnits`), one loop step never extends the result mapping, whatever
the flags, the line and the boundary condition are. -/
theorem step_result_no_body (bold : List (List Char)) (line : List Char)
    (isLast : Bool) (s : ParserSpbPU.SpbState)
    (h1 : s.textUnits = []) (h2 : s.listUnits = []) :
    (ParserSpbPU.step bold isLast s line).result = s.result := by
  obtain ⟨nt, lu, tu, ft, fu, r⟩ := s
  simp only at h1 h2
  subst h1 h2
  have hr : ParserSpbPU.refactorText [] = [] := by decide
  have hu : ParserSpbPU.finalUnits ⟨nt, [], [], ft, fu, r⟩ = [] := by
    simp only [ParserSpbPU.finalUnits, hr]
    decide
  have hf : ParserSpbPU.finalize ⟨nt, [], [], ft, fu, r⟩ = ⟨nt, [], [], ft, fu, r⟩ := by
    simp [ParserSpbPU.finalize, hu, hr]
  simp only [ParserSpbPU.step, hf]
  split
  · split <;> split <;> split <;> rfl
  · rfl

/-- On a boundary line, when both flags are set, the heading is non-empty
and starts with a digit, and the recomputed unit list is non-empty, the
step stores exactly the pair
`(transformedName.strip(), finalUnits)` through the dictionary
assignment. -/
theorem step_result_finalized (bold : List (List Char)) (line : List Char)
    (isLast : Bool) (s : ParserSpbPU.SpbState)
    (hb : pyStrip line ∈ bold ∨ isLast = true)
    (hft : s.flagTopic = true) (hfu : s.flagUnits = true)
    (hnt : s.nameTopic.isEmpty = false)
    (hu : (ParserSpbPU.finalUnits s).isEmpty = false)
    (hd : ParserSpbPU.headDigit s.nameTopic = true) :
    (ParserSpbPU.step bold isLast s line).result =
      upsertA s.result (pyStrip (ParserSpbPU.transformedName s.nameTopic))
        (ParserSpbPU.finalUnits s) := by
  have hb' : (decide (pyStrip line ∈ bold) || isLast) = true := by
    rcases hb with h | h <;> simp [h]
  have hf : (ParserSpbPU.finalize s).result =
      upsertA s.result (pyStrip (ParserSpbPU.transformedName s.nameTopic))
        (ParserSpbPU.finalUnits s) := by
    simp [ParserSpbPU.finalize, hnt, hu, hd]
  have hffu : (ParserSpbPU.finalize s).flagUnits = s.flagUnits := by
    simp [ParserSpbPU.finalize]
    split <;> rfl
  by_cases hl : ParserSpbPU.headDigit line = true
  · simp [ParserSpbPU.step, hb', hft, hfu, hffu, hf, hl]
  · simp [ParserSpbPU.step, hb', hft, hfu, hffu, hf, hl]

/-- A dictionary assignment on a fresh key grows the mapping by exactly
one entry. -/
theorem upsertA_length_fresh (m : List (List Char × List (List Char)))
    (k : List Char) (v : List (List Char))
    (h : m.any (fun kv => kv.1 = k) = false) :
    (upsertA m k v).length = m.length + 1 := by
  simp [upsertA, h]

/-- C6: refuted as stated.  In `readTextFromFileDiscipline` of
`parserSpbPU.py` (lines 129-151) the heading `Введение` is a recognized
bold line and is followed by the body line `содержание темы` before the
next boundary, and the body passes `__checkText`, yet the resulting
mapping is empty: finalization additionally requires
`nameTopic[0].isdigit()`, so a heading with a body produces no entry when
it does not start with a digit. -/
theorem claim6_counterexample :
    pyStrip (chars "Введение") ∈ [chars "Введение", chars "конец"] ∧
    ParserSpbPU.checkText (chars "содержание темы") = true ∧
    ParserSpbPU.topicsFromLines
      [chars "Введение", chars "содержание темы", chars "конец"]
      [chars "Введение", chars "конец"] = [] := by
  refine ⟨by decide, by decide, by decide⟩

/-- C6 (amended): a unit with no accumulated body and no accumulated
units is never finalized into the mapping; on a boundary with both flags
set, a non-empty heading that starts with a digit and a non-empty
recomputed unit list, the step performs exactly the dictionary
assignment `result[transformedName.strip()] = finalUnits`; and on a
fresh key that assignment adds exactly one entry. -/
theorem claim6_amended :
    (∀ (bold : List (List Char)) (line : List Char) (isLast : Bool)
      (s : ParserSpbPU.SpbState), s.textUnits = [] → s.listUnits = [] →
      (ParserSpbPU.step bold isLast s line).result = s.result) ∧
    (∀ (bold : List (List Char)) (line : List Char) (isLast : Bool)
      (s : ParserSpbPU.SpbState),
      (pyStrip line ∈ bold ∨ isLast = true) →
      s.flagTopic = true → s.flagUnits = true →
      s.nameTopic.isEmpty = false →
      (ParserSpbPU.finalUnits s).isEmpty = false →
      ParserSpbPU.headDigit s.nameTopic = true →
      (ParserSpbPU.step bold isLast s line).result =
        upsertA s.result (pyStrip (ParserSpbPU.transformedName s.nameTopic))
          (ParserSpbPU.finalUnits s)) ∧
    (∀ (m : List (List Char × List (List Char))) (k : List Char)
      (v : List (List Char)), m.any (fun kv => kv.1 = k) = false →
      (upsertA m k v).length = m.length + 1) :=
  ⟨step_result_no_body, step_result_finalized, upsertA_length_fresh⟩

/-- Instantiation of the amended C6 statement: a digit-headed topic with
an accumulated body is stored, a bodyless state stores nothing, and a
fresh-key assignment adds one entry. -/
theorem claim6_witness :
    (ParserSpbPU.step [] true
        ⟨chars "1. Тема", [], chars "тело темы", true, true, []⟩ []).result =
      upsertA [] (pyStrip (ParserSpbPU.transformedName (chars "1. Тема")))
        (ParserSpbPU.finalUnits
          ⟨chars "1. Тема", [], chars "тело темы", true, true, []⟩) ∧
    (ParserSpbPU.step [] false
        ⟨[], [], [], false, false, [(chars "к", [])]⟩ (chars "x")).result =
      [(chars "к", [])] ∧
    (upsertA [(chars "а", [chars "б"])] (chars "к") [chars "v"]).length = 2 :=
  ⟨claim6_amended.2.1 [] [] true
      ⟨chars "1. Тема", [], chars "тело темы", true, true, []⟩
      (Or.inr rfl) rfl rfl (by decide) (by decide) (by decide),
    claim6_amended.1 [] (chars "x") false
      ⟨[], [], [], false, false, [(chars "к", [])]⟩ rfl rfl,
    claim6_amended.2.2 [(chars "а", [chars "б"])] (chars "к") [chars "v"]
      (by decide)⟩

/-! ## Claim C8: directions with zero parsed disciplines -/

/-- Folding `dict.update` over a run of failed parses leaves the
accumulator unchanged. -/
theorem foldl_upsert_none {β : Type} (outcomes : List (Option (List Char × β)))
    (h : ∀ o ∈ outcomes, o = none) (acc : List (List Char × β)) :
    outcomes.foldl
      (fun acc o => match o with
        | some (k, v) => upsertA acc k v
        | none => acc) acc = acc := by
  induction outcomes generalizing acc with
  | nil => rfl
  | cons o t ih =>
    have ho := h o (List.mem_cons_self _ _)
    subst ho
    exact ih (fun o ho => h o (List.mem_cons_of_mem _ ho)) acc

/-- After a dictionary assignment the assigned pair is in the mapping,
whether the key was fresh or overwritten. -/
theorem upsertA_self_mem {β : Type} (m : List (List Char × β)) (k : List Char)
    (v : β) : (k, v) ∈ upsertA m k v := by
  unfold upsertA
  split
  · rename_i h
    rw [List.any_eq_true] at h
    obtain ⟨kv, hm, hk⟩ := h
    have hk' : kv.1 = k := of_decide_eq_true hk
    exact List.mem_map.mpr ⟨kv, hm, by simp [hk']⟩
  · exact List.mem_append.mpr (Or.inr (List.mem_cons_self _ _))

/-- C8: refuted as stated.  `parserSpbPU.py` lines 28-36 assign
`directionsOfStudy[dirOfDirection] = listOfDisciplines` unconditionally
once the directory exists, and `parserLETI.py` line 148 initializes
`directionsOfStudy[directoryName] = []` before reading any file: in both
parsers a direction whose files all fail to parse is present with an
empty list. -/
theorem claim8_counterexample :
    ParserSpbPU.loadDirectionOfStudy
      ([] : List (List Char × List (List Char × List Char)))
      (chars "09.03.01") [none, none] = [(chars "09.03.01", [])] ∧
    ParserLETI.startDirection ([] : List (List Char × List Nat))
      (chars "09.03.01") [none] = [(chars "09.03.01", [])] := by
  refine ⟨by decide, by decide⟩

/-- C8 (amended): GUAP leaves the direction collection unchanged when
every file of a direction fails to parse, but SpbPU appends the
direction key with an empty list in that situation (when the key was
absent), and LETI's loop body puts the key into the mapping with an
empty list as well. -/
theorem claim8_amended :
    (∀ (β : Type) (dirs : List (List Char × List (List Char × β)))
      (name : List Char) (outcomes : List (Option (List Char × β))),
      (∀ o ∈ outcomes, o = none) →
      ParserGUAP.load_single_direction dirs name outcomes = dirs) ∧
    (∀ (β : Type) (dirs : List (List Char × List (List Char × β)))
      (name : List Char) (outcomes : List (Option (List Char × β))),
      dirs.any (fun kv => kv.1 = name) = false →
      (∀ o ∈ outcomes, o = none) →
      ParserSpbPU.loadDirectionOfStudy dirs name outcomes =
        dirs ++ [(name, [])]) ∧
    (∀ (β : Type) (dirs : List (List Char × List β)) (name : List Char)
      (outcomes : List (Option β)),
      (∀ o ∈ outcomes, o = none) →
      (name, ([] : List β)) ∈ ParserLETI.startDirection dirs name outcomes) := by
  refine ⟨?_, ?_, ?_⟩
  · intro β dirs name outcomes h
    unfold ParserGUAP.load_single_direction
    rw [foldl_upsert_none outcomes h]
    rfl
  · intro β dirs name outcomes hk h
    unfold ParserSpbPU.loadDirectionOfStudy
    rw [if_neg (by simp [hk])]
    have : (outcomes.filterMap fun o =>
        match o with
        | some (n, a) => if n.isEmpty then none else some (n, a)
        | none => none) = [] := by
      rw [List.filterMap_eq_nil_iff]
      intro o ho
      rw [h o ho]
    rw [this]
  · intro β dirs name outcomes h
    unfold ParserLETI.startDirection
    have : outcomes.filterMap id = [] := by
      rw [List.filterMap_eq_nil_iff]
      intro o ho
      rw [h o ho]
      rfl
    rw [this]
    exact upsertA_self_mem dirs name []

/-- Instantiation of the amended C8 statement on concrete one-file
directions whose parse failed. -/
theorem claim8_witness :
    ParserGUAP.load_single_direction
      ([(chars "и", [])] : List (List Char × List (List Char × Nat)))
      (chars "д") [none] = [(chars "и", [])] ∧
    ParserSpbPU.loadDirectionOfStudy
      ([] : List (List Char × List (List Char × Nat))) (chars "д") [none] =
      [(chars "д", [])] ∧
    (chars "д", ([] : List Nat)) ∈
      ParserLETI.startDirection ([] : List (List Char × List Nat))
        (chars "д") [none] :=
  ⟨claim8_amended.1 Nat [(chars "и", [])] (chars "д") [none] (by decide),
    claim8_amended.2.1 Nat [] (chars "д") [none] (by decide) (by decide),
    claim8_amended.2.2 Nat [] (chars "д") [none] (by decide)⟩

/-! ## Claim C2: title-marker rejection -/

/-- C2: refuted as stated for the GUAP parser.  A document whose text
contains no title marker at all (none of the four patterns of
`_extract_discipline_name` matches) is not rejected: the name is taken
from the file name, so `_read_discipline_from_file`'s only rejection
condition (`if not discipline_name`) does not fire. -/
theorem claim2_counterexample :
    isSubstr (chars "РАБОЧАЯ ПРОГРАММА ДИСЦИПЛИНЫ")
      (chars "Общий текст без маркеров") = false ∧
    ParserGUAP.extract_discipline_name (chars "Общий текст без маркеров")
      (chars "dir/rpd_matan_01.pdf") = chars "Matan" ∧
    ParserGUAP.guapRejects (chars "Общий текст без маркеров")
      (chars "dir/rpd_matan_01.pdf") = false := by
  refine ⟨by decide, by decide, by decide⟩

/-- C2 (amended): MPU and SpbPU reject a document exactly when the title
marker is absent (an empty MPU text also has no marker), and for both
the absence of the follow-on and topic sections only degrades the
respective field to empty; GUAP instead falls back to the file name
whenever all four title patterns fail, so its rejection is decided by
the file name and not by the text. -/
theorem claim2_amended :
    (∀ (text base : List Char),
      ParserMPU.read_discipline_file text base = none ↔
        isSubstr ParserMPU.titleOfDocument text = false) ∧
    (∀ (text : List Char) (bold : List (List Char)),
      ParserSpbPU.readTextFromFileDiscipline text bold = none ↔
        isSubstr ParserSpbPU.titleOfDocument text = false) ∧
    (∀ text : List Char,
      (∀ m ∈ ParserMPU.nextDisciplinesMarkers, pyFind text m = -1) →
      ParserMPU.extract_next_disciplines text = []) ∧
    (∀ text : List Char,
      pyFind text (chars "3.3 Содержание дисциплины") = -1 →
      pyFind text (chars "3.3 Содержание") = -1 →
      pyFind text ParserMPU.contentStartMarker = -1 →
      ParserMPU.extract_topics text = []) ∧
    (∀ (text path : List Char),
      ParserGUAP.search1 text = none → ParserGUAP.search2 text = none →
      ParserGUAP.search3 text = none → ParserGUAP.search4 text = none →
      ParserGUAP.extract_discipline_name text path =
        ParserGUAP.fallbackName path) := by
  refine ⟨?_, ?_, ?_, ?_, ?_⟩
  · intro text base
    unfold ParserMPU.read_discipline_file
    by_cases he : text.isEmpty = true
    · have : text = [] := by simpa [List.isEmpty_iff] using he
      subst this
      constructor
      · intro _
        decide
      · intro _
        rfl
    · rw [if_neg he]
      by_cases hs : isSubstr ParserMPU.titleOfDocument text = true
      · simp [hs]
      · rw [Bool.not_eq_true] at hs
        simp [hs]
  · intro text bold
    unfold ParserSpbPU.readTextFromFileDiscipline
    by_cases hs : isSubstr ParserSpbPU.titleOfDocument text = true
    · simp [hs]
    · rw [Bool.not_eq_true] at hs
      simp [hs]
  · intro text h
    have hf : ParserMPU.nextDisciplinesMarkers.find?
        (fun m => pyFind text m != -1) = none := by
      rw [List.find?_eq_none]
      intro m hm
      simp [h m hm]
    unfold ParserMPU.extract_next_disciplines
    rw [hf]
  · intro text h1 h2 h3
    simp [ParserMPU.extract_topics, h1, h2, h3]
  · intro text path h1 h2 h3 h4
    unfold ParserGUAP.extract_discipline_name
    rw [h1, h2, h3, h4]
    rfl

/-- Instantiation of the amended C2 statement on concrete marker-free
inputs. -/
theorem claim2_witness :
    ParserMPU.read_discipline_file (chars "нет маркера") (chars "f.pdf") = none ∧
    ParserSpbPU.readTextFromFileDiscipline (chars "нет маркера") [] = none ∧
    ParserMPU.extract_next_disciplines (chars "пустой документ") = [] ∧
    ParserMPU.extract_topics (chars "пустой документ") = [] ∧
    ParserGUAP.extract_discipline_name (chars "пустой документ")
      (chars "rpd_a_1.pdf") = ParserGUAP.fallbackName (chars "rpd_a_1.pdf") :=
  ⟨(claim2_amended.1 (chars "нет маркера") (chars "f.pdf")).mpr (by decide),
    (claim2_amended.2.1 (chars "нет маркера") []).mpr (by decide),
    claim2_amended.2.2.1 (chars "пустой документ") (by decide),
    claim2_amended.2.2.2.1 (chars "пустой документ") (by decide) (by decide)
      (by decide),
    claim2_amended.2.2.2.2 (chars "пустой документ") (chars "rpd_a_1.pdf")
      (by decide) (by decide) (by decide) (by decide)⟩
